import Mathlib

/-!
A verification development for the history-rewriting filter engine in
`src/filters.rs`.

The object store is content-addressed, so git objects are modelled as an
inductive type: an oid is either the `zero` sentinel or the object itself
(two objects with identical content have identical oid, which the model
renders as definitional equality; repository lookups such as `find_tree`
or `find_commit` then simply inspect the object).  Trees are ordered
mappings `name -> object` kept as association lists in canonical
name-sorted order, the order libgit2's treebuilder writes them in.  Blob
payloads are modelled as strings (the engine reads blob contents only as
text).  Panics (indexing a `BTreeMap` at a missing key) are kept apart
from `JoshResult` errors.

Recursion through dynamic dispatch (a `&dyn Filter` whose
`apply_to_commit` re-enters `apply_filter_cached`, and the workspace
filter whose combine expansion is read from the tree being filtered) is
modelled with an explicit fuel parameter; fuel exhaustion is reported as
an error, and statements about the engine either quantify over the fuel
or are conditional on a successful (non-error) outcome.  The per-filter
memo tables of `striped_tree` are omitted: they cache a deterministic
function keyed by its arguments and are semantically transparent.
-/

set_option autoImplicit false
set_option maxHeartbeats 2000000

namespace Josh

/-- A git object: blob, tree (ordered entries) or commit.  Commit
metadata (author, message, ...) is collapsed into one opaque `Nat` since
the engine preserves it verbatim. -/
inductive Obj : Type where
  | blob (data : String) : Obj
  | tree (entries : List (String × Obj)) : Obj
  | commit (tre : Obj) (parents : List Obj) (meta : Nat) : Obj

mutual
def decEqObj : (a b : Obj) → Decidable (a = b)
  | .blob x, .blob y =>
    match String.decEq x y with
    | .isTrue h => .isTrue (by rw [h])
    | .isFalse h => .isFalse (fun hh => h (Obj.blob.inj hh))
  | .tree es, .tree fs =>
    match decEqTreeL es fs with
    | .isTrue h => .isTrue (by rw [h])
    | .isFalse h => .isFalse (fun hh => h (Obj.tree.inj hh))
  | .commit t ps m, .commit t' ps' m' =>
    match decEqObj t t', decEqObjs ps ps', Nat.decEq m m' with
    | .isTrue h1, .isTrue h2, .isTrue h3 => .isTrue (by rw [h1, h2, h3])
    | .isFalse h1, _, _ => .isFalse (fun hh => h1 (Obj.commit.inj hh).1)
    | _, .isFalse h2, _ => .isFalse (fun hh => h2 (Obj.commit.inj hh).2.1)
    | _, _, .isFalse h3 => .isFalse (fun hh => h3 (Obj.commit.inj hh).2.2)
  | .blob _, .tree _ => .isFalse (fun h => Obj.noConfusion h)
  | .blob _, .commit _ _ _ => .isFalse (fun h => Obj.noConfusion h)
  | .tree _, .blob _ => .isFalse (fun h => Obj.noConfusion h)
  | .tree _, .commit _ _ _ => .isFalse (fun h => Obj.noConfusion h)
  | .commit _ _ _, .blob _ => .isFalse (fun h => Obj.noConfusion h)
  | .commit _ _ _, .tree _ => .isFalse (fun h => Obj.noConfusion h)

def decEqTreeL : (a b : List (String × Obj)) → Decidable (a = b)
  | [], [] => .isTrue rfl
  | [], _ :: _ => .isFalse (fun h => List.noConfusion h)
  | _ :: _, [] => .isFalse (fun h => List.noConfusion h)
  | (n, o) :: as, (n', o') :: bs =>
    match String.decEq n n', decEqObj o o', decEqTreeL as bs with
    | .isTrue h1, .isTrue h2, .isTrue h3 => .isTrue (by rw [h1, h2, h3])
    | .isFalse h1, _, _ =>
      .isFalse (fun hh => h1 (congrArg Prod.fst (List.head_eq_of_cons_eq hh)))
    | _, .isFalse h2, _ =>
      .isFalse (fun hh => h2 (congrArg Prod.snd (List.head_eq_of_cons_eq hh)))
    | _, _, .isFalse h3 => .isFalse (fun hh => h3 (List.tail_eq_of_cons_eq hh))

def decEqObjs : (a b : List Obj) → Decidable (a = b)
  | [], [] => .isTrue rfl
  | [], _ :: _ => .isFalse (fun h => List.noConfusion h)
  | _ :: _, [] => .isFalse (fun h => List.noConfusion h)
  | a :: as, b :: bs =>
    match decEqObj a b, decEqObjs as bs with
    | .isTrue h1, .isTrue h2 => .isTrue (by rw [h1, h2])
    | .isFalse h1, _ => .isFalse (fun hh => h1 (List.head_eq_of_cons_eq hh))
    | _, .isFalse h2 => .isFalse (fun hh => h2 (List.tail_eq_of_cons_eq hh))
end

instance : DecidableEq Obj := decEqObj

/-- An oid: the distinguished `zero` sentinel, or a content-addressed
object. -/
inductive Oid : Type where
  | zero : Oid
  | obj (o : Obj) : Oid
deriving DecidableEq

abbrev Tree := List (String × Obj)

/-- The well-known oid of the empty tree (`empty_tree_id`). -/
def emptyTreeId : Oid := .obj (.tree [])

def oidOfTree (t : Tree) : Oid := .obj (.tree t)

def objOid (o : Obj) : Oid := .obj o

/-- `commit.tree_id()`. -/
def commitTreeOid : Obj → Oid
  | .commit t _ _ => .obj t
  | o => .obj o

/-- `commit.parents()`. -/
def commitParents : Obj → List Obj
  | .commit _ ps _ => ps
  | _ => []

def commitMeta : Obj → Nat
  | .commit _ _ m => m
  | _ => 0

def isCommit : Obj → Bool
  | .commit _ _ _ => true
  | _ => false

def isTreeObj : Obj → Bool
  | .tree _ => true
  | _ => false

/-- Association-list lookup of a tree entry by name (`tree.get_name`). -/
def lookupT (n : String) : Tree → Option Obj
  | [] => none
  | (m, o) :: rest => if n = m then some o else lookupT n rest

/-- Entry insertion in canonical (name-sorted) order, as libgit2's
treebuilder stores entries; an existing name is overwritten. -/
def insertEntry (n : String) (o : Obj) : Tree → Tree
  | [] => [(n, o)]
  | (m, p) :: rest =>
    if n = m then (n, o) :: rest
    else if n < m then (n, o) :: (m, p) :: rest
    else (m, p) :: insertEntry n o rest

/-- `treebuilder.remove` (removing an absent name is a no-op: the source
discards the result with `.ok()`). -/
def removeEntry (n : String) : Tree → Tree
  | [] => []
  | (m, p) :: rest => if n = m then rest else (m, p) :: removeEntry n rest

/-- `replace_child(parent_tree, name, oid)`: remove the entry when the oid
is `zero` or the empty tree, otherwise insert/overwrite it.  (The file
mode chosen by the source is determined by whether the oid resolves to a
tree, which the model recovers from the object itself.) -/
def replaceChild (n : String) (oid : Oid) (t : Tree) : Tree :=
  match oid with
  | .zero => removeEntry n t
  | .obj o => if o = .tree [] then removeEntry n t else insertEntry n o t

/-- Descend an object along path components; descending into a non-tree
fails. -/
def getPathO : Obj → List String → Option Obj
  | o, [] => some o
  | .tree es, n :: ps =>
    match lookupT n es with
    | some o => getPathO o ps
    | none => none
  | _, _ :: _ => none

/-- `tree.get_path(p)` — libgit2 rejects the empty path. -/
def treeGetPath (t : Tree) (p : List String) : Option Obj :=
  match p with
  | [] => none
  | _ => getPathO (.tree t) p

/-- `get_subtree(tree, path)`. -/
def getSubtree (t : Tree) (p : List String) : Option Oid :=
  (treeGetPath t p).map .obj

/-- The entries found at `path`, or `[]` when the path is absent or does
not name a tree (`repo.find_tree(st).unwrap_or(empty_tree)`). -/
def subtreeEntries (t : Tree) (p : List String) : Tree :=
  match treeGetPath t p with
  | some (.tree es) => es
  | _ => []

/-- The entries of the child named `n`, or `[]` when absent or not a
tree. -/
def childEntries (t : Tree) (n : String) : Tree :=
  match lookupT n t with
  | some (.tree es) => es
  | _ => []

/-- Errors of the engine: `JoshResult` errors (`josh`), and panics
(`panik`) — kept apart because a panic is not a value in the source. -/
inductive EErr : Type where
  | josh (msg : String) : EErr
  | panik (msg : String) : EErr
deriving DecidableEq

/-- Worker for `replace_subtree`, taking the path components in reverse
order: the source splits off `file_name` (the last component) and recurses
on `parent` (`dropLast`), which is structural recursion on the reversed
component list.  The head of the argument is the final component of the
path still to be processed; the tail, reversed, is the remaining parent
path. -/
def replaceSubtreeRev : List String → Oid → Tree → Except EErr Tree
  | [], _, _ => .error (.josh "file_name")
  | [n], oid, t => .ok (replaceChild n oid t)
  | n :: q, oid, t =>
    let st := subtreeEntries t q.reverse
    let sub := replaceChild n oid st
    replaceSubtreeRev q (oidOfTree sub) t

/-- `replace_subtree(root_tree, path, oid)`: descend to the leaf
(creating empty intermediate trees where missing), `replace_child` there,
rebuild ancestors bottom-up.  The empty path fails with the `file_name`
error of the source. -/
def replaceSubtree (p : List String) (oid : Oid) (t : Tree) : Except EErr Tree :=
  replaceSubtreeRev p.reverse oid t

/-- `select_parent_commits`: keep all filtered parents iff some filtered
parent's tree differs from the filtered tree, or every original parent
has the original commit's tree; otherwise keep none. -/
def selectParentCommits (originalCommit : Obj) (filteredTreeId : Oid)
    (filteredParentCommits : List Obj) : List Obj :=
  let affectsFiltered := filteredParentCommits.any
    (fun x => decide (filteredTreeId ≠ commitTreeOid x))
  let allDiffsEmpty := (commitParents originalCommit).all
    (fun x => decide (commitTreeOid x = commitTreeOid originalCommit))
  if affectsFiltered || allDiffsEmpty then filteredParentCommits else []

/-- `repo.find_commit(oid)`. -/
def findCommit : Oid → Except EErr Obj
  | .zero => .error (.josh "find_commit")
  | .obj o => if isCommit o then .ok o else .error (.josh "find_commit")

/-- Modelled from the spec: `scratch::rewrite`, the external
commit-rewriting primitive, "composes a new commit with preserved
metadata but a new tree and parent list".  In the content-addressed model
the oid of the rewritten commit is the commit object itself. -/
def rewriteCommit (original : Obj) (selectedParents : List Obj) (t : Tree) : Obj :=
  .commit (.tree t) selectedParents (commitMeta original)

/-- `create_filtered_commit`. -/
def createFilteredCommit (originalCommit : Obj) (filteredParentIds : List Oid)
    (filteredTree : Tree) : Except EErr Oid := do
  let nonzero := filteredParentIds.filter (fun x => x ≠ Oid.zero)
  let filteredParentCommits ← nonzero.mapM findCommit
  let selected := selectParentCommits originalCommit (oidOfTree filteredTree)
    filteredParentCommits
  if selected.isEmpty then
    match filteredParentCommits with
    | x :: _ => return objOid x
    | [] =>
      if oidOfTree filteredTree = emptyTreeId then return Oid.zero
      else return objOid (rewriteCommit originalCommit selected filteredTree)
  else
    return objOid (rewriteCommit originalCommit selected filteredTree)

/-- Size bound used by the termination measure of `mergedTree`; stated
with `def` because it is part of that definition. -/
def lookupT_sizeBound {n : String} {es : Tree} {o : Obj}
    (h : lookupT n es = some o) : sizeOf o < sizeOf es := by
  induction es with
  | nil => simp [lookupT] at h
  | cons hd tl ih =>
    obtain ⟨m, p⟩ := hd
    simp only [lookupT] at h
    split at h
    · cases h; simp; omega
    · have := ih h; simp; omega

mutual
/-- `merged_tree(a, b)`: short-circuit on equality and on either side
being the empty tree; when both resolve to trees, start from `a`'s
entries and fold `b`'s entries in, recursing (with the arguments swapped,
as the source does) on a name collision; otherwise (a blob, a commit or
`zero` on either side, so that `find_tree` fails) return the first
argument. -/
def mergedTree : Oid → Oid → Oid
  | i1, i2 =>
    if i1 = i2 then i1
    else if i1 = emptyTreeId then i2
    else if i2 = emptyTreeId then i1
    else match i1, i2 with
      | .obj (.tree es1), .obj (.tree es2) => oidOfTree (mergedFold es1 es2 es1)
      | _, _ => i1
termination_by i1 i2 => sizeOf i1 + sizeOf i2

/-- The entry fold of `merged_tree`: iterate `b`'s entries (`es2`) over
the accumulated result (initially `a`'s entries), looking collisions up
in `a`'s original entries (`es1`). -/
def mergedFold : Tree → Tree → Tree → Tree
  | _, [], acc => acc
  | es1, (n, o2) :: rest, acc =>
    let acc' := match h : lookupT n es1 with
      | some e => replaceChild n (mergedTree (.obj o2) (.obj e)) acc
      | none => replaceChild n (.obj o2) acc
    mergedFold es1 rest acc'
termination_by es1 es2 _ => sizeOf es1 + sizeOf es2
decreasing_by
  all_goals first
  | (have hlb := lookupT_sizeBound h; simp at hlb ⊢; omega)
  | (simp <;> omega)
end

def joinRoot (root n : String) : String :=
  if root = "" then n else root ++ "/" ++ n

mutual
/-- `striped_tree(repo, root, input, pattern, invert, dirs)`.  The glob
matcher (`glob::Pattern::matches_path_with`, with case-sensitive, literal
separator, literal leading dot options) and `to_ns` are external: they
are passed in as functions.  The memo cache of the source is omitted (it
memoizes a deterministic function of `(input, root)`). -/
def stripedTree (gm : String → String → Bool) (tns : String → String)
    (pat : String) (invert dirs : Bool) (root : String) (t : Tree) : Tree :=
  let result := stripedFold gm tns pat invert dirs root t []
  if dirs && root ≠ "" then
    replaceChild ("JOSH_ORIG_PATH_" ++ tns root) (.obj (.blob "")) result
  else result

def stripedFold (gm : String → String → Bool) (tns : String → String)
    (pat : String) (invert dirs : Bool) (root : String) : Tree → Tree → Tree
  | [], acc => acc
  | (n, o) :: rest, acc =>
    let acc' := match o with
      | .blob d =>
        if gm pat (joinRoot root n) = !invert
        then replaceChild n (.obj (.blob d)) acc else acc
      | .tree es =>
        let s := stripedTree gm tns pat invert dirs (joinRoot root n) es
        if s ≠ [] then replaceChild n (oidOfTree s) acc else acc
      | .commit _ _ _ => acc
    stripedFold gm tns pat invert dirs root rest acc'
end

/-- `SubdirFilter::apply_to_tree`: the subtree rooted at `p`, or the
empty tree when absent or not a tree. -/
def subdirApply (p : List String) (t : Tree) : Tree :=
  match treeGetPath t p with
  | some (.tree es) => es
  | _ => []

/-- `PrefixFilter::apply_to_tree`: place the whole tree under `p` in an
empty tree. -/
def prefixApply (p : List String) (t : Tree) : Except EErr Tree :=
  replaceSubtree p (oidOfTree t) []

/-- `HideFilter::apply_to_tree`: remove the subtree at `p`. -/
def hideApply (p : List String) (t : Tree) : Except EErr Tree :=
  replaceSubtree p Oid.zero t

/-- `HideFilter::unapply`: re-insert at `p` whatever the parent tree has
there (or `zero` when absent). -/
def hideUnapply (p : List String) (t parentTree : Tree) : Except EErr Tree :=
  let hidden := match treeGetPath parentTree p with
    | some o => Oid.obj o
    | none => Oid.zero
  replaceSubtree p hidden t

/-- The filter AST.  Each variant mirrors one `Filter` implementation of
the source; `combine` zips the source's parallel `others`/`prefixes`
vectors into one list (they are always pushed in lockstep). -/
inductive Filt : Type where
  | nop : Filt
  | emptyf : Filt
  | dirs : Filt
  | foldf : Filt
  | subdir (p : List String) : Filt
  | prefixf (p : List String) : Filt
  | hide (p : List String) : Filt
  | glob (pat : String) (invert : Bool) : Filt
  | cutoff (name : String) : Filt
  | info (values : List (String × String)) : Filt
  | chain (first second : Filt) : Filt
  | combine (base : Filt) (entries : List (Filt × List String)) : Filt
  | workspace (p : List String) : Filt

/-- `path.to_str()` of a component list. -/
def pathStr (p : List String) : String := String.intercalate "/" p

/-- Remove the first occurrence of `pat` from the character list
(`replacen(pat, "", 1)`). -/
def removeFirstAux (pat : List Char) : List Char → List Char
  | [] => []
  | c :: rest =>
    if pat.isPrefixOf (c :: rest) then (c :: rest).drop pat.length
    else c :: removeFirstAux pat rest

def removeFirstStr (pat s : String) : String :=
  ⟨removeFirstAux pat.toList s.toList⟩

/-- Key-sorted iteration order of a `BTreeMap` modelled on an association
list (insertion sort by key). -/
def insertSortedKV (kv : String × String) : List (String × String) → List (String × String)
  | [] => [kv]
  | kv' :: rest => if kv.1 ≤ kv'.1 then kv :: kv' :: rest else kv' :: insertSortedKV kv rest

def sortByKey (l : List (String × String)) : List (String × String) :=
  l.foldr insertSortedKV []

def dropTrailingCommas (s : String) : String :=
  ⟨((s.toList.reverse.dropWhile (fun c => c = ',')).reverse)⟩

/-- `InfoFileFilter::filter_spec`: `:INFO=k1=v1,k2=v2` sorted by key,
with trailing commas trimmed. -/
def infoSpecStr (values : List (String × String)) : String :=
  dropTrailingCommas
    (":INFO=" ++ String.join ((sortByKey values).map (fun kv => kv.1 ++ "=" ++ kv.2 ++ ",")))

mutual
/-- `filter_spec` of each variant.  `chain` concatenates and removes the
first occurrence of `":nop"` (`replacen(":nop", "", 1)`); `combine`
prints the multi-line workspace form. -/
def filterSpec : Filt → String
  | .nop => ":nop"
  | .emptyf => ":empty"
  | .dirs => ":DIRS"
  | .foldf => ":FOLD"
  | .subdir p => ":/" ++ pathStr p
  | .prefixf p => ":prefix=" ++ pathStr p
  | .hide p => ":hide=" ++ pathStr p
  | .glob pat invert => (if invert then ":~glob=" else ":glob=") ++ pat
  | .cutoff n => ":CUTOFF=" ++ n
  | .workspace p => ":workspace=" ++ pathStr p
  | .info vs => infoSpecStr vs
  | .chain f g => removeFirstStr ":nop" (filterSpec f ++ filterSpec g)
  | .combine base entries => specEntries ("/ = " ++ filterSpec base) entries

def specEntries (acc : String) : List (Filt × List String) → String
  | [] => acc
  | (other, pfx) :: rest =>
    specEntries (acc ++ "\n" ++ pathStr pfx ++ " = " ++ filterSpec other) rest
end

/-- `SubdirFilter::new`: one single-component subdir filter per path
component, chained; the empty path gives `Nop`. -/
def subdirNew (p : List String) : Filt :=
  match p with
  | [] => .nop
  | c :: rest => rest.foldl (fun chn comp => .chain chn (.subdir [comp])) (.subdir [c])

/-- Modelled from the spec: the external collaborators the engine is
parameterized over — the grammar parser for workspace files (producing
`(sub-filter, prefix)` entries per §6; the engine "depends on *some*
parser producing the AST", not on its implementation), the glob crate's
matcher, the hex rendering of an oid, and the `to_ns` path encoding. -/
structure Ctx where
  parseWs : String → Option (List (Filt × List String))
  globMatch : String → String → Bool
  oidToString : Oid → String
  toNs : String → String

/-- `build_combine_filter(filter_spec, base)`: parse the workspace-file
text; a parse failure is the "Invalid workspace" error.  Returns the
`CombineFilter`'s fields `(base, zip others prefixes)`. -/
def buildCombineFilter (ctx : Ctx) (s : String) (base : Filt) :
    Except EErr (Filt × List (Filt × List String)) :=
  match ctx.parseWs s with
  | some entries => .ok (base, entries)
  | none => .error (.josh "Invalid workspace")

/-- `combine_filter_from_ws(repo, tree, ws_path)`: read
`<ws_path>/workspace.josh` from the tree; when missing, not a blob, or
not UTF-8 (blobs are strings in the model, so the last case is
unreachable), degrade to the empty workspace file. -/
def combineFilterFromWs (ctx : Ctx) (t : Tree) (wsPath : List String) :
    Except EErr (Filt × List (Filt × List String)) :=
  let base := subdirNew wsPath
  match treeGetPath t (wsPath ++ ["workspace.josh"]) with
  | some (.blob content) => buildCombineFilter ctx content base
  | _ => buildCombineFilter ctx "" base

def escapeInfoVal (v : String) : String :=
  (v.replace "<colon>" ":").replace "<comma>" ","

def lookupStr (k : String) : List (String × String) → Option String
  | [] => none
  | (k', v) :: rest => if k = k' then some v else lookupStr k rest

/-- `Path::new(s)` split into components. -/
def pathComponents (s : String) : List String :=
  (s.splitOn "/").filter (fun c => c ≠ "")

/-- The line-building loop of `InfoFileFilter::apply_to_tree`.  Indexing
`self.values["prefix"]` on a missing key panics. -/
def infoLinesFold (ots : Oid → String) (values : List (String × String))
    (t : Tree) : List (String × String) → String → Except EErr String
  | [], acc => .ok acc
  | (k, v) :: rest, acc =>
    let v' := escapeInfoVal v
    if k = "prefix" then infoLinesFold ots values t rest acc
    else
      match (if v' = "#tree" then
          match lookupStr "prefix" values with
          | some pv => Except.ok (ots (match treeGetPath t (pathComponents pv) with
              | some o => Oid.obj o
              | none => Oid.zero))
          | none => Except.error (EErr.panik "no entry found for key prefix")
        else Except.ok v') with
      | .error e => .error e
      | .ok rendered =>
        infoLinesFold ots values t rest (acc ++ k ++ ": " ++ rendered ++ "\n")

/-- `InfoFileFilter::apply_to_tree`: build the `.joshinfo` blob content
(one `k: v` line per non-`prefix` key in `BTreeMap` order, `#tree`
resolving to the oid at `prefix`), then write it at
`<prefix>/.joshinfo`.  Both uses of `self.values["prefix"]` panic when
the key is missing. -/
def infoFileApplyToTree (ots : Oid → String) (values : List (String × String))
    (t : Tree) : Except EErr Tree := do
  let s ← infoLinesFold ots values t (sortByKey values) ""
  match lookupStr "prefix" values with
  | some pv => replaceSubtree (pathComponents pv ++ [".joshinfo"]) (.obj (.blob s)) t
  | none => .error (.panik "no entry found for key prefix")

mutual
/-- `Filter::apply_to_tree` dispatch over the AST; the fuel bounds the
recursion through workspace expansion (see the header note). -/
def applyToTree (ctx : Ctx) : Nat → Filt → Tree → Except EErr Tree
  | 0, _, _ => .error (.josh "recursion limit")
  | fuel + 1, flt, t =>
    match flt with
    | .nop => .ok t
    | .emptyf => .ok []
    | .subdir p => .ok (subdirApply p t)
    | .prefixf p => prefixApply p t
    | .hide p => hideApply p t
    | .glob pat invert => .ok (stripedTree ctx.globMatch ctx.toNs pat invert false "" t)
    | .dirs => .ok (stripedTree ctx.globMatch ctx.toNs "**/workspace.josh" false true "" t)
    | .foldf => .ok []
    | .cutoff _ => .ok t
    | .info vs => infoFileApplyToTree ctx.oidToString vs t
    | .chain f g =>
      match applyToTree ctx fuel f t with
      | .error e => .error e
      | .ok t1 => applyToTree ctx fuel g t1
    | .combine base entries =>
      match applyToTree ctx fuel base t with
      | .error e => .error e
      | .ok b => combineFoldTree ctx fuel t entries b
    | .workspace p =>
      match combineFilterFromWs ctx t p with
      | .ok (cb, ce) => applyToTree ctx fuel (.combine cb ce) t
      | .error _ =>
        match buildCombineFilter ctx "" (subdirNew p) with
        | .ok (cb, ce) => applyToTree ctx fuel (.combine cb ce) t
        | .error e => .error e

/-- The entry loop of `CombineFilter::apply_to_tree`: apply each
sub-filter to the original tree and, when the result is non-empty, graft
it at its prefix. -/
def combineFoldTree (ctx : Ctx) : Nat → Tree → List (Filt × List String) → Tree →
    Except EErr Tree
  | 0, _, _, _ => .error (.josh "recursion limit")
  | _ + 1, _, [], base => .ok base
  | fuel + 1, t, (other, pfx) :: rest, base =>
    match applyToTree ctx fuel other t with
    | .error e => .error e
    | .ok o =>
      if o = [] then combineFoldTree ctx fuel t rest base
      else
        match replaceSubtree pfx (oidOfTree o) base with
        | .error e => .error e
        | .ok base' => combineFoldTree ctx fuel t rest base'
end

abbrev CKey := String × Oid

/-- Modelled from the spec: a `FilterCache` is a map keyed by
`(spec string, oid)`; `set` overwrites, `get` is called only on present
keys (the model defaults to `zero`). -/
abbrev Cache := List (CKey × Oid)

def lookupC : Cache → CKey → Option Oid
  | [], _ => none
  | (k', v) :: rest, k => if k = k' then some v else lookupC rest k

def cacheSet (c : Cache) (k : CKey) (v : Oid) : Cache := (k, v) :: c

def cacheHas (c : Cache) (k : CKey) : Bool := (lookupC c k).isSome

def cacheGet (c : Cache) (k : CKey) : Oid := (lookupC c k).getD Oid.zero

mutual
/-- The ancestor list of a commit, oldest first, possibly with
duplicates (each commit listed after all its parents). -/
def walkAux : Obj → List Obj
  | .commit t ps m => walkAuxL ps ++ [.commit t ps m]
  | _ => []

def walkAuxL : List Obj → List Obj
  | [] => []
  | c :: cs => walkAux c ++ walkAuxL cs
end

def dedupKeepFirst (seen : List Obj) : List Obj → List Obj
  | [] => []
  | x :: xs =>
    if x ∈ seen then dedupKeepFirst seen xs
    else x :: dedupKeepFirst (x :: seen) xs

/-- The `revwalk` of `apply_filter_cached`: reverse-topological
(oldest-first) order over the ancestry of the tip, each commit once.  The
source's order among incomparable commits is backend-defined; the model
fixes one valid reverse-topological order. -/
def walkList : Oid → List Obj
  | .zero => []
  | .obj o => dedupKeepFirst [] (walkAux o)

/-- One iteration of the commit walk: apply the filter to the commit, on
error substitute `zero` (`ok_or!` with a logged error), then record both
cache directions. -/
def afcStep (spec : String)
    (atc : Obj → Cache → Cache → Except EErr Oid × Cache × Cache)
    (st : Cache × Cache) (c : Obj) : Cache × Cache :=
  let r := atc c st.1 st.2
  let filtered := match r.1 with
    | .ok v => v
    | .error _ => Oid.zero
  (cacheSet r.2.1 (spec, objOid c) filtered,
   cacheSet r.2.2 (spec, filtered) (objOid c))

/-- `apply_filter_cached(repo, filter, newrev, fwd, bwd)` over an
abstract filter (the `&dyn Filter` of the source is an object with a
spec string and an `apply_to_commit` method): return the cached value if
present; otherwise walk the ancestry oldest-first applying the filter to
every commit, then default the tip to `zero` when still unset, and
return the tip's forward entry. -/
def applyFilterCachedWith (spec : String)
    (atc : Obj → Cache → Cache → Except EErr Oid × Cache × Cache)
    (tip : Oid) (fwd bwd : Cache) : Oid × Cache × Cache :=
  if cacheHas fwd (spec, tip) then (cacheGet fwd (spec, tip), fwd, bwd)
  else
    let st := (walkList tip).foldl (afcStep spec atc) (fwd, bwd)
    let fwd2 := if cacheHas st.1 (spec, tip) then st.1
      else cacheSet st.1 (spec, tip) Oid.zero
    (cacheGet fwd2 (spec, tip), fwd2, st.2)

def entryString (pfx : List String) (f : Filt) : String :=
  pathStr pfx ++ " = " ++ filterSpec f

def entryStringsOf (entries : List (Filt × List String)) : List String :=
  entries.map (fun e => entryString e.2 e.1)

/-- `HashSet::insert` on the model's insertion-ordered set. -/
def insertSet (s : List String) (x : String) : List String :=
  if x ∈ s then s else s ++ [x]

/-- `HashSet::remove`. -/
def removeSet (s : List String) (x : String) : List String :=
  s.filter (fun y => y ≠ x)

/-- The per-parent data of the first loop of
`ws_apply_to_tree_and_parents`: the parent's workspace entry strings
(from its tree's `workspace.josh`, degrading to the empty workspace on
error). -/
def parentWsEntries (ctx : Ctx) (wsPath : List String) (parentOid : Oid) :
    Except EErr (List String) :=
  match findCommit parentOid with
  | .error e => .error e
  | .ok pc =>
    match pc with
    | .commit (.tree pes) _ _ =>
      match (match combineFilterFromWs ctx pes wsPath with
        | .ok r => Except.ok r
        | .error _ => buildCombineFilter ctx "" (subdirNew wsPath)) with
      | .ok (_, pentries) => .ok (entryStringsOf pentries)
      | .error e => .error e
    | _ => .error (.josh "commit.tree")

mutual
/-- `Filter::apply_to_commit` dispatch: the default implementation (cache
check, filtered tree, recursively filtered parents, then
`create_filtered_commit`), with the `Cutoff`/`Chain`/`Fold`/`Workspace`
overrides of the source.  Caches are threaded explicitly (they are `&mut`
in the source, so updates made before an error persist). -/
def applyToCommit (ctx : Ctx) : Nat → Filt → Obj → Cache → Cache →
    Except EErr Oid × Cache × Cache
  | 0, _, _, fwd, bwd => (.error (.josh "recursion limit"), fwd, bwd)
  | fuel + 1, flt, c, fwd, bwd =>
    match flt with
    | .cutoff _ =>
      match c with
      | .commit (.tree es) ps m =>
        (.ok (objOid (rewriteCommit (.commit (.tree es) ps m) [] es)), fwd, bwd)
      | _ => (.error (.josh "commit.tree"), fwd, bwd)
    | .chain f g =>
      match applyToCommit ctx fuel f c fwd bwd with
      | (.error e, f1, b1) => (.error e, f1, b1)
      | (.ok r, f1, b1) =>
        match findCommit r with
        | .error _ => (.ok Oid.zero, f1, b1)
        | .ok c' => applyToCommit ctx fuel g c' f1 b1
    | .foldf =>
      if cacheHas fwd (filterSpec .foldf, objOid c) then
        (.ok (cacheGet fwd (filterSpec .foldf, objOid c)), fwd, bwd)
      else
        match filterParentsFold ctx fuel .foldf (commitParents c) fwd bwd with
        | (ids, f1, b1) =>
          match ids.mapM (fun i => (findCommit i).map commitTreeOid) with
          | .error e => (.error e, f1, b1)
          | .ok trees =>
            match trees.foldl mergedTree (commitTreeOid c) with
            | .obj (.tree fes) =>
              match createFilteredCommit c ids fes with
              | .ok r => (.ok r, f1, b1)
              | .error e => (.error e, f1, b1)
            | _ => (.error (.josh "find_tree"), f1, b1)
    | .workspace p =>
      if cacheHas fwd (filterSpec (.workspace p), objOid c) then
        (.ok (cacheGet fwd (filterSpec (.workspace p), objOid c)), fwd, bwd)
      else
        match c with
        | .commit (.tree es) ps m =>
          match wsApply ctx fuel p es (ps.map objOid) fwd bwd with
          | (.error e, f1, b1) => (.error e, f1, b1)
          | (.ok (t', ids), f1, b1) =>
            match createFilteredCommit (.commit (.tree es) ps m) ids t' with
            | .ok r => (.ok r, f1, b1)
            | .error e => (.error e, f1, b1)
        | _ => (.error (.josh "commit.tree"), fwd, bwd)
    | _ =>
      if cacheHas fwd (filterSpec flt, objOid c) then
        (.ok (cacheGet fwd (filterSpec flt, objOid c)), fwd, bwd)
      else
        match c with
        | .commit (.tree es) ps m =>
          match applyToTree ctx fuel flt es with
          | .error e => (.error e, fwd, bwd)
          | .ok ftree =>
            match filterParentsFold ctx fuel flt ps fwd bwd with
            | (ids, f1, b1) =>
              match createFilteredCommit (.commit (.tree es) ps m) ids ftree with
              | .ok r => (.ok r, f1, b1)
              | .error e => (.error e, f1, b1)
        | _ => (.error (.josh "commit.tree"), fwd, bwd)

/-- The parent recursion of the default `apply_to_commit`: each parent
through `apply_filter_cached`, threading the caches.  (Fuel exhaustion
returns no ids; the engine is always run with ample fuel.) -/
def filterParentsFold (ctx : Ctx) : Nat → Filt → List Obj → Cache → Cache →
    List Oid × Cache × Cache
  | 0, _, _, fwd, bwd => ([], fwd, bwd)
  | _ + 1, _, [], fwd, bwd => ([], fwd, bwd)
  | fuel + 1, flt, p :: rest, fwd, bwd =>
    match applyFilterCachedWith (filterSpec flt)
        (fun cc a b => applyToCommit ctx fuel flt cc a b) (objOid p) fwd bwd with
    | (r, f1, b1) =>
      match filterParentsFold ctx fuel flt rest f1 b1 with
      | (rs, f2, b2) => (r :: rs, f2, b2)

/-- The first loop of `ws_apply_to_tree_and_parents`: filter each parent
through `apply_filter_cached` with the workspace filter itself (keeping
non-zero results), and subtract the parent's workspace entries from the
`in_this` set. -/
def wsParentFold (ctx : Ctx) : Nat → List String → List Oid →
    List Oid → List String → Cache → Cache →
    Except EErr (List Oid × List String) × Cache × Cache
  | 0, _, _, _, _, fwd, bwd => (.error (.josh "recursion limit"), fwd, bwd)
  | _ + 1, _, [], ids, inThis, fwd, bwd => (.ok (ids, inThis), fwd, bwd)
  | fuel + 1, wsPath, parent :: rest, ids, inThis, fwd, bwd =>
    match applyFilterCachedWith (filterSpec (.workspace wsPath))
        (fun cc a b => applyToCommit ctx fuel (.workspace wsPath) cc a b)
        parent fwd bwd with
    | (p, f1, b1) =>
      let ids' := if p ≠ Oid.zero then ids ++ [p] else ids
      match parentWsEntries ctx wsPath parent with
      | .error e => (.error e, f1, b1)
      | .ok pstrs =>
        wsParentFold ctx fuel wsPath rest ids' (pstrs.foldl removeSet inThis) f1 b1

/-- `WorkspaceFilter::ws_apply_to_tree_and_parents`. -/
def wsApply (ctx : Ctx) : Nat → List String → Tree → List Oid → Cache → Cache →
    Except EErr (Tree × List Oid) × Cache × Cache
  | 0, _, _, _, fwd, bwd => (.error (.josh "recursion limit"), fwd, bwd)
  | fuel + 1, wsPath, fullTree, parents, fwd, bwd =>
    match (match combineFilterFromWs ctx fullTree wsPath with
      | .ok r => Except.ok r
      | .error _ => buildCombineFilter ctx "" (subdirNew wsPath)) with
    | .error e => (.error e, fwd, bwd)
    | .ok (cwBase, cwEntries) =>
      let inThis0 := (entryStringsOf cwEntries).foldl insertSet []
      match wsParentFold ctx fuel wsPath parents [] inThis0 fwd bwd with
      | (.error e, f1, b1) => (.error e, f1, b1)
      | (.ok (ids, inThis), f1, b1) =>
        match buildCombineFilter ctx
            (inThis.foldl (fun acc x => acc ++ x ++ "\n") "") .emptyf with
        | .error e => (.error e, f1, b1)
        | .ok (pcwBase, pcwEntries) =>
          let finish := fun (ids2 : List Oid) (fx bx : Cache) =>
            match applyToTree ctx fuel (.combine cwBase cwEntries) fullTree with
            | .error e => ((.error e : Except EErr (Tree × List Oid)), fx, bx)
            | .ok t' => (.ok (t', ids2), fx, bx)
          match parents with
          | [] => finish ids f1 b1
          | p0 :: _ =>
            match findCommit p0 with
            | .error _ => finish ids f1 b1
            | .ok pc0 =>
              match applyToCommit ctx fuel (.combine pcwBase pcwEntries) pc0 f1 b1 with
              | (.error e, f2, b2) => (.error e, f2, b2)
              | (.ok p, f2, b2) =>
                finish (if p ≠ Oid.zero then ids ++ [p] else ids) f2 b2
end

/-- `apply_filter_cached` for a concrete AST filter. -/
def applyFilterCached (ctx : Ctx) (fuel : Nat) (flt : Filt) (tip : Oid)
    (fwd bwd : Cache) : Oid × Cache × Cache :=
  applyFilterCachedWith (filterSpec flt)
    (fun cc a b => applyToCommit ctx fuel flt cc a b) tip fwd bwd

end Josh


namespace Josh

/-- Strictly name-sorted entry list (the canonical order of a written
git tree). -/
def sortedKeys : Tree → Bool
  | [] => true
  | [_] => true
  | (n, _) :: (m, q) :: rest => decide (n < m) && sortedKeys ((m, q) :: rest)

mutual
/-- A canonical git object: every tree reachable from it is strictly
name-sorted (as every tree written by libgit2 is). -/
def canonicalObj : Obj → Bool
  | .blob _ => true
  | .commit _ _ _ => true
  | .tree es => canonicalEntries es

def canonicalEntries : Tree → Bool
  | [] => true
  | [(_, o)] => canonicalObj o
  | (n, o) :: (m, p) :: rest =>
    decide (n < m) && canonicalObj o && canonicalEntries ((m, p) :: rest)
end

/-- The side condition under which hiding at `p` is reversible: every
strict non-empty prefix of `p` resolves in the tree to nothing or to a
non-empty tree, and `p` itself does not resolve to an empty tree. -/
def pathOk : Tree → List String → Bool
  | t, [] => true
  | t, [n] => decide (lookupT n t ≠ some (.tree []))
  | t, n :: ps =>
    match lookupT n t with
    | none => true
    | some (.tree es) => decide (es ≠ []) && pathOk es ps
    | some _ => false

/-- The backward-to-forward coherence invariant of the two filter
caches: every backward entry with a non-zero filtered oid points back to
an original that the forward map sends to that filtered oid. -/
def CacheInv (fwd bwd : Cache) : Prop :=
  ∀ s f o, f ≠ Oid.zero → lookupC bwd (s, f) = some o → lookupC fwd (s, o) = some f

/-- The per-call contract `apply_filter_cached` relies on from the
filter's `apply_to_commit`: it preserves the coherence invariant, its
result agrees with an existing forward cache entry for the commit, and
it does not touch the commit's own forward entry (the walk loop, not the
filter, records it). -/
def AtcOk (spec : String)
    (atc : Obj → Cache → Cache → Except EErr Oid × Cache × Cache) : Prop :=
  ∀ c fwd bwd, CacheInv fwd bwd →
    CacheInv (atc c fwd bwd).2.1 (atc c fwd bwd).2.2 ∧
    (∀ v, lookupC fwd (spec, objOid c) = some v → (atc c fwd bwd).1 = Except.ok v) ∧
    lookupC (atc c fwd bwd).2.1 (spec, objOid c) = lookupC fwd (spec, objOid c)

/-- An `apply_to_commit` that fails on every commit, leaving the caches
unchanged. -/
def atcErr (e : EErr) : Obj → Cache → Cache → Except EErr Oid × Cache × Cache :=
  fun _ a b => (.error e, a, b)

/-! Concrete instances used by witnesses and counterexamples. -/

/-- A concrete context: the workspace parser accepts only the empty
workspace file. -/
def ctxD : Ctx :=
  { parseWs := fun s => if s = "" then some [] else none,
    globMatch := fun _ _ => false,
    oidToString := fun _ => "",
    toNs := fun s => s }

def treeA : Tree := [("x", .tree [("f", .blob "1")])]
def treeB : Tree := [("x", .tree [("f", .blob "1")]), ("y", .blob "2")]
/-- A root commit. -/
def cA : Obj := .commit (.tree treeA) [] 0
/-- A child of `cA` whose tree differs but filters (under `:/x`) to the
same tree. -/
def cB : Obj := .commit (.tree treeB) [cA] 1
/-- What `cA` rewrites to under `:/x`. -/
def cAf : Obj := .commit (.tree [("f", .blob "1")]) [] 0
/-- A full engine pass of the filter `:/x` over the history `cA ← cB`. -/
def c3Run : Oid × Cache × Cache :=
  applyFilterCached ctxD 10 (.subdir ["x"]) (objOid cB) [] []

/-- An `apply_to_commit` that answers from the forward cache and leaves
the caches unchanged; it satisfies `AtcOk`. -/
def atcW : Obj → Cache → Cache → Except EErr Oid × Cache × Cache :=
  fun c f b => (.ok (cacheGet f ("s", objOid c)), f, b)

/-- The caches after the parent loop of the C9 witness run: the single
parent `cA` filters to `zero` under the workspace filter `:workspace=w`,
and both directions record it. -/
def c9F1 : Cache := [((filterSpec (.workspace ["w"]), objOid cA), Oid.zero)]

/-- The backward counterpart of `c9F1`. -/
def c9B1 : Cache := [((filterSpec (.workspace ["w"]), Oid.zero), objOid cA)]

end Josh

namespace Josh

/-! Helper lemmas. -/

theorem findCommit_ok_eq {x : Oid} {o : Obj} (h : findCommit x = Except.ok o) :
    x = objOid o := by
  cases x with
  | zero => simp [findCommit] at h
  | obj o' =>
    simp only [findCommit] at h
    split at h
    · cases h; rfl
    · cases h

theorem replaceSubtreeRev_ok (q : List String) (oid : Oid) (t : Tree) (hq : q ≠ []) :
    ∃ r, replaceSubtreeRev q oid t = Except.ok r := by
  induction q generalizing oid t with
  | nil => exact absurd rfl hq
  | cons n q ih =>
    cases q with
    | nil => exact ⟨replaceChild n oid t, rfl⟩
    | cons m q' =>
      obtain ⟨r, hr⟩ := ih (oidOfTree (replaceChild n oid
        (subtreeEntries t ((m :: q').reverse)))) t (by simp)
      exact ⟨r, by simpa [replaceSubtreeRev] using hr⟩

theorem replaceSubtree_ok (p : List String) (oid : Oid) (t : Tree) (hp : p ≠ []) :
    ∃ r, replaceSubtree p oid t = Except.ok r :=
  replaceSubtreeRev_ok p.reverse oid t (by simpa using hp)

/-- C1: `select_parent_commits` keeps all filtered parents exactly when
some filtered parent's tree differs from the filtered tree or every
original parent of the commit has the commit's own tree, and otherwise
keeps none; in particular a merge whose original parents' trees all equal
the commit's tree keeps all filtered parents. -/
theorem c1_parent_selection (c : Obj) (tid : Oid) (fps : List Obj) :
    (selectParentCommits c tid fps =
      if (∃ p ∈ fps, commitTreeOid p ≠ tid) ∨
          (∀ q ∈ commitParents c, commitTreeOid q = commitTreeOid c)
        then fps else []) ∧
    ((∀ q ∈ commitParents c, commitTreeOid q = commitTreeOid c) →
      selectParentCommits c tid fps = fps) := by
  have hb : ((fps.any fun x => decide (tid ≠ commitTreeOid x)) ||
      ((commitParents c).all fun x => decide (commitTreeOid x = commitTreeOid c))) = true ↔
      ((∃ p ∈ fps, commitTreeOid p ≠ tid) ∨
        (∀ q ∈ commitParents c, commitTreeOid q = commitTreeOid c)) := by
    simp only [Bool.or_eq_true, List.any_eq_true, List.all_eq_true, decide_eq_true_eq]
    constructor
    · rintro (⟨p, hp, hne⟩ | h)
      · exact Or.inl ⟨p, hp, fun hh => hne hh.symm⟩
      · exact Or.inr h
    · rintro (⟨p, hp, hne⟩ | h)
      · exact Or.inl ⟨p, hp, fun hh => hne hh.symm⟩
      · exact Or.inr h
  have key : selectParentCommits c tid fps =
      if (∃ p ∈ fps, commitTreeOid p ≠ tid) ∨
          (∀ q ∈ commitParents c, commitTreeOid q = commitTreeOid c)
        then fps else [] := by
    unfold selectParentCommits
    by_cases h : (∃ p ∈ fps, commitTreeOid p ≠ tid) ∨
        (∀ q ∈ commitParents c, commitTreeOid q = commitTreeOid c)
    · rw [if_pos h, if_pos (hb.mpr h)]
    · rw [if_neg h, if_neg (fun hh => h (hb.mp hh))]
  exact ⟨key, fun h => by rw [key, if_pos (Or.inr h)]⟩

/-- C1 witness: a merge of two parents whose trees equal the commit's
tree keeps both filtered parents even though their trees equal the
filtered tree. -/
theorem c1_witness :
    selectParentCommits (.commit (.tree []) [.commit (.tree []) [] 0] 2)
      (.obj (.tree [])) [cAf, cAf] = [cAf, cAf] :=
  (c1_parent_selection _ _ _).2 (by decide)

/-- C2: when the parent-selection rule keeps no parents,
`create_filtered_commit` returns the first non-zero filtered parent when
one exists; otherwise the zero oid when the filtered tree is empty;
otherwise a newly materialized root commit from the filtered tree. -/
theorem c2_collapse_elide_root (c : Obj) (ids : List Oid) (ft : Tree) (cs : List Obj)
    (hmat : (ids.filter (fun x => x ≠ Oid.zero)).mapM findCommit = Except.ok cs)
    (hsel : selectParentCommits c (oidOfTree ft) cs = []) :
    createFilteredCommit c ids ft = Except.ok
      (match ids.filter (fun x => x ≠ Oid.zero) with
        | x :: _ => x
        | [] => if ft = [] then Oid.zero else objOid (rewriteCommit c [] ft)) := by
  unfold createFilteredCommit
  cases hnz : ids.filter (fun x => x ≠ Oid.zero) with
  | nil =>
    rw [hnz] at hmat
    simp only [List.mapM_nil, pure, Except.pure] at hmat
    cases hmat
    simp only [List.mapM_nil, pure, Except.pure, bind, Except.bind, hsel,
      List.isEmpty_nil, if_true]
    by_cases hft : ft = []
    · subst hft; simp [oidOfTree, emptyTreeId]
    · have : oidOfTree ft ≠ emptyTreeId := by
        simp only [oidOfTree, emptyTreeId, ne_eq, Oid.obj.injEq, Obj.tree.injEq]
        exact hft
      simp [this, hft]
  | cons x rest =>
    rw [hnz] at hmat
    simp only [List.mapM_cons] at hmat
    cases hx : findCommit x with
    | error e => rw [hx] at hmat; simp [bind, Except.bind] at hmat
    | ok o =>
      rw [hx] at hmat
      simp only [bind, Except.bind] at hmat
      cases hrest : rest.mapM findCommit with
      | error e => rw [hrest] at hmat; simp at hmat
      | ok os =>
        rw [hrest] at hmat
        simp only [pure, Except.pure] at hmat
        cases hmat
        simp only [List.mapM_cons, hx, hrest, bind, Except.bind, pure, Except.pure,
          hsel, List.isEmpty_nil, if_true]
        exact congrArg Except.ok (findCommit_ok_eq hx).symm

/-- C2 witness: a commit with one non-zero filtered parent whose tree
equals the filtered tree (and an original parent with a different tree)
collapses to that parent's oid. -/
theorem c2_witness :
    createFilteredCommit cB [objOid cAf] [("f", .blob "1")] = Except.ok (objOid cAf) := by
  have h := c2_collapse_elide_root cB [objOid cAf] [("f", .blob "1")] [cAf]
    (by rfl) (by decide)
  simpa using h

end Josh

namespace Josh

theorem infoLinesFold_err {ots : Oid → String} {values : List (String × String)}
    {t : Tree} {e : EErr} :
    ∀ {l : List (String × String)} {acc : String},
    infoLinesFold ots values t l acc = .error e →
    e = .panik "no entry found for key prefix" ∧ lookupStr "prefix" values = none := by
  intro l
  induction l with
  | nil => intro acc h; simp [infoLinesFold] at h
  | cons kv rest ih =>
    intro acc h
    obtain ⟨k, v⟩ := kv
    simp only [infoLinesFold] at h
    by_cases hk : k = "prefix"
    · rw [if_pos hk] at h; exact ih h
    · rw [if_neg hk] at h
      by_cases hv : escapeInfoVal v = "#tree"
      · rw [if_pos hv] at h
        cases hpv : lookupStr "prefix" values with
        | some pv =>
          rw [hpv] at h
          have hih := ih h
          simp [hpv] at hih
        | none =>
          rw [hpv] at h
          simp only [Except.error.injEq] at h
          exact ⟨h.symm, rfl⟩
      · rw [if_neg hv] at h; exact ih h

theorem infoLinesFold_ok (ots : Oid → String) {values : List (String × String)}
    (t : Tree) (pv : String) (hpv : lookupStr "prefix" values = some pv) :
    ∀ (l : List (String × String)) (acc : String),
    ∃ s, infoLinesFold ots values t l acc = .ok s := by
  intro l
  induction l with
  | nil => intro acc; exact ⟨acc, rfl⟩
  | cons kv rest ih =>
    intro acc
    obtain ⟨k, v⟩ := kv
    simp only [infoLinesFold]
    by_cases hk : k = "prefix"
    · rw [if_pos hk]; exact ih acc
    · rw [if_neg hk]
      by_cases hv : escapeInfoVal v = "#tree"
      · rw [if_pos hv, hpv]; exact ih _
      · rw [if_neg hv]; exact ih _

/-- C10: `InfoFileFilter::apply_to_tree` panics (rather than returning an
error) exactly when its key-value map lacks the key `"prefix"`: the
source indexes `self.values["prefix"]` without a guard, both when
resolving `"#tree"` and when building the `.joshinfo` path; with the key
present it is total. -/
theorem c10_infofile_prefix_key_panics (ots : Oid → String)
    (values : List (String × String)) (t : Tree) :
    (lookupStr "prefix" values = none →
      infoFileApplyToTree ots values t = .error (.panik "no entry found for key prefix")) ∧
    (∀ pv, lookupStr "prefix" values = some pv →
      ∃ r, infoFileApplyToTree ots values t = .ok r) := by
  constructor
  · intro hpv
    unfold infoFileApplyToTree
    cases hfold : infoLinesFold ots values t (sortByKey values) "" with
    | error e =>
      obtain ⟨he, _⟩ := infoLinesFold_err hfold
      subst he
      simp [bind, Except.bind, hfold]
    | ok s => simp [bind, Except.bind, hfold, hpv]
  · intro pv hpv
    obtain ⟨s, hs⟩ := infoLinesFold_ok ots t pv hpv (sortByKey values) ""
    obtain ⟨r, hr⟩ := replaceSubtree_ok (pathComponents pv ++ [".joshinfo"])
      (.obj (.blob s)) t (by simp)
    exact ⟨r, by simp [infoFileApplyToTree, bind, Except.bind, hs, hpv, hr]⟩

/-- C10 witness: an info filter without a `prefix` entry panics on the
empty tree; one with a `prefix` entry succeeds. -/
theorem c10_witness :
    infoFileApplyToTree (fun _ => "") [("k", "v")] [] =
      .error (.panik "no entry found for key prefix") :=
  (c10_infofile_prefix_key_panics (fun _ => "") [("k", "v")] []).1 (by decide)

end Josh

namespace Josh

theorem removeFirstAux_self_append (pat l : List Char) (hpat : pat ≠ []) :
    removeFirstAux pat (pat ++ l) = l := by
  cases pat with
  | nil => exact absurd rfl hpat
  | cons c cs =>
    show removeFirstAux (c :: cs) (c :: (cs ++ l)) = l
    unfold removeFirstAux
    have hpre : (c :: cs).isPrefixOf (c :: (cs ++ l)) = true := by
      rw [List.isPrefixOf_iff_prefix]
      exact List.prefix_append (c :: cs) l
    rw [if_pos hpre]
    exact List.drop_left (c :: cs) l

/-- C5 counterexample: the claim predicts that only a *leading* `:nop`
is removed, so `Chain(Subdir "a", Nop)` would print `":/a:nop"`; the
source removes the first occurrence of `":nop"` anywhere, printing
`":/a"`. -/
theorem c5_chain_spec_cex :
    filterSpec (.chain (.subdir ["a"]) .nop) = ":/a" ∧
    filterSpec (.chain (.subdir ["a"]) .nop) ≠ ":/a" ++ ":nop" := by
  constructor
  · rfl
  · have h1 : filterSpec (.chain (.subdir ["a"]) .nop) = ":/a" := rfl
    rw [h1]
    decide

/-- C5 amended: the spec of `Chain(f, g)` is the concatenation of the two
specs with the *first* occurrence of `":nop"` (leading or not) removed;
in particular `Chain(Nop, g)` prints as `g`'s spec. -/
theorem c5_chain_spec_amended (f g : Filt) :
    (filterSpec (.chain f g) = removeFirstStr ":nop" (filterSpec f ++ filterSpec g)) ∧
    (filterSpec (.chain .nop g) = filterSpec g) := by
  refine ⟨rfl, ?_⟩
  show removeFirstStr ":nop" (filterSpec .nop ++ filterSpec g) = filterSpec g
  have h1 : filterSpec Filt.nop = ":nop" := rfl
  rw [h1]
  unfold removeFirstStr
  have h2 : (":nop" ++ filterSpec g).toList = ":nop".toList ++ (filterSpec g).toList :=
    String.data_append ":nop" (filterSpec g)
  rw [h2, removeFirstAux_self_append _ _ (by decide)]
  show String.mk (filterSpec g).data = filterSpec g
  cases hg : filterSpec g
  rfl

end Josh

namespace Josh

/-! Lemmas about canonical (sorted) trees and entry surgery. -/

theorem lookupT_insertEntry_self (n : String) (o : Obj) (t : Tree) :
    lookupT n (insertEntry n o t) = some o := by
  induction t with
  | nil => simp [insertEntry, lookupT]
  | cons e rest ih =>
    obtain ⟨m, p⟩ := e
    simp only [insertEntry]
    by_cases h : n = m
    · rw [if_pos h]; simp [lookupT]
    · rw [if_neg h]
      by_cases h2 : n < m
      · rw [if_pos h2]; simp [lookupT]
      · rw [if_neg h2]
        simp only [lookupT, if_neg h]
        exact ih

theorem lookupT_insertEntry_ne {n k : String} (o : Obj) (t : Tree) (h : k ≠ n) :
    lookupT k (insertEntry n o t) = lookupT k t := by
  induction t with
  | nil => simp [insertEntry, lookupT, h]
  | cons e rest ih =>
    obtain ⟨m, p⟩ := e
    simp only [insertEntry]
    by_cases h1 : n = m
    · rw [if_pos h1]
      subst h1
      simp [lookupT, h]
    · rw [if_neg h1]
      by_cases h2 : n < m
      · rw [if_pos h2]; simp [lookupT, h]
      · rw [if_neg h2]
        simp only [lookupT]
        by_cases h3 : k = m
        · rw [if_pos h3, if_pos h3]
        · rw [if_neg h3, if_neg h3]; exact ih

theorem lookupT_removeEntry_ne {n k : String} (t : Tree) (h : k ≠ n) :
    lookupT k (removeEntry n t) = lookupT k t := by
  induction t with
  | nil => simp [removeEntry]
  | cons e rest ih =>
    obtain ⟨m, p⟩ := e
    simp only [removeEntry]
    by_cases h1 : n = m
    · rw [if_pos h1]
      subst h1
      simp [lookupT, h]
    · rw [if_neg h1]
      simp only [lookupT]
      by_cases h3 : k = m
      · rw [if_pos h3, if_pos h3]
      · rw [if_neg h3, if_neg h3]; exact ih

theorem removeEntry_absent {n : String} {t : Tree} (h : lookupT n t = none) :
    removeEntry n t = t := by
  induction t with
  | nil => rfl
  | cons e rest ih =>
    obtain ⟨m, p⟩ := e
    simp only [lookupT] at h
    split at h
    · cases h
    · next hne =>
      simp only [removeEntry, if_neg hne]
      rw [ih h]

theorem lookupT_removeEntry_isSome {n k : String} {t : Tree}
    (h : (lookupT k (removeEntry n t)).isSome = true) :
    (lookupT k t).isSome = true := by
  by_cases hk : k = n
  · subst hk
    cases hl : lookupT k t with
    | some o => simp
    | none =>
      rw [removeEntry_absent hl, hl] at h
      exact h
  · rw [lookupT_removeEntry_ne t hk] at h
    exact h

theorem lookupT_insertEntry_isSome {n k : String} {o : Obj} {t : Tree}
    (h : (lookupT k (insertEntry n o t)).isSome = true) :
    k = n ∨ (lookupT k t).isSome = true := by
  by_cases hk : k = n
  · exact Or.inl hk
  · rw [lookupT_insertEntry_ne o t hk] at h
    exact Or.inr h

theorem sorted_tail {e : String × Obj} {t : Tree} (h : sortedKeys (e :: t) = true) :
    sortedKeys t = true := by
  obtain ⟨m, p⟩ := e
  cases t with
  | nil => rfl
  | cons e2 rest =>
    obtain ⟨m2, p2⟩ := e2
    simp only [sortedKeys, Bool.and_eq_true] at h
    exact h.2

theorem sorted_cons_bound {m : String} {p : Obj} {t : Tree}
    (h : sortedKeys ((m, p) :: t) = true) :
    ∀ k, (lookupT k t).isSome = true → m < k := by
  induction t generalizing m p with
  | nil => intro k hk; simp [lookupT] at hk
  | cons e2 rest ih =>
    obtain ⟨m2, p2⟩ := e2
    simp only [sortedKeys, Bool.and_eq_true, decide_eq_true_eq] at h
    intro k hk
    simp only [lookupT] at hk
    split at hk
    · next heq => rw [heq]; exact h.1
    · exact lt_trans h.1 (ih (by simpa [sortedKeys] using h.2) k hk)

theorem sorted_cons_of {m : String} {p : Obj} {t : Tree}
    (hs : sortedKeys t = true) (hb : ∀ k, (lookupT k t).isSome = true → m < k) :
    sortedKeys ((m, p) :: t) = true := by
  cases t with
  | nil => rfl
  | cons e2 rest =>
    obtain ⟨m2, p2⟩ := e2
    simp only [sortedKeys, Bool.and_eq_true, decide_eq_true_eq]
    refine ⟨hb m2 (by simp [lookupT]), hs⟩

theorem lookupT_removeEntry_self {n : String} {t : Tree}
    (hs : sortedKeys t = true) :
    lookupT n (removeEntry n t) = none := by
  induction t with
  | nil => rfl
  | cons e rest ih =>
    obtain ⟨m, p⟩ := e
    simp only [removeEntry]
    by_cases h1 : n = m
    · rw [if_pos h1]
      subst h1
      cases hl : lookupT n rest with
      | none => rfl
      | some o =>
        have := sorted_cons_bound hs n (by simp [hl])
        exact absurd this (lt_irrefl n)
    · rw [if_neg h1]
      simp only [lookupT, if_neg h1]
      exact ih (sorted_tail hs)

theorem insertEntry_self {n : String} {o : Obj} {t : Tree}
    (hs : sortedKeys t = true) (h : lookupT n t = some o) :
    insertEntry n o t = t := by
  induction t with
  | nil => simp [lookupT] at h
  | cons e rest ih =>
    obtain ⟨m, p⟩ := e
    simp only [lookupT] at h
    simp only [insertEntry]
    by_cases h1 : n = m
    · rw [if_pos h1]
      rw [if_pos h1] at h
      cases h
      rw [h1]
    · rw [if_neg h1] at h
      have hlt : m < n := sorted_cons_bound hs n (by simp [h])
      rw [if_neg h1, if_neg (by exact fun hh => absurd (lt_trans hh hlt) (lt_irrefl n))]
      rw [ih (sorted_tail hs) h]

theorem insertEntry_removeEntry {n : String} {o : Obj} {t : Tree}
    (hs : sortedKeys t = true) (h : lookupT n t = some o) :
    insertEntry n o (removeEntry n t) = t := by
  induction t with
  | nil => simp [lookupT] at h
  | cons e rest ih =>
    obtain ⟨m, p⟩ := e
    simp only [lookupT] at h
    simp only [removeEntry]
    by_cases h1 : n = m
    · rw [if_pos h1]
      rw [if_pos h1] at h
      cases h
      subst h1
      cases rest with
      | nil => rfl
      | cons e2 rest2 =>
        obtain ⟨m2, p2⟩ := e2
        simp only [sortedKeys, Bool.and_eq_true, decide_eq_true_eq] at hs
        simp only [insertEntry]
        rw [if_neg (ne_of_lt hs.1), if_pos hs.1]
    · rw [if_neg h1]
      rw [if_neg h1] at h
      have hlt : m < n := sorted_cons_bound hs n (by simp [h])
      simp only [insertEntry]
      rw [if_neg h1, if_neg (by exact fun hh => absurd (lt_trans hh hlt) (lt_irrefl n))]
      rw [ih (sorted_tail hs) h]

theorem insertEntry_insertEntry (n : String) (o o' : Obj) (t : Tree) :
    insertEntry n o (insertEntry n o' t) = insertEntry n o t := by
  induction t with
  | nil => simp [insertEntry]
  | cons e rest ih =>
    obtain ⟨m, p⟩ := e
    simp only [insertEntry]
    by_cases h1 : n = m
    · rw [if_pos h1]
      subst h1
      simp [insertEntry]
    · rw [if_neg h1]
      by_cases h2 : n < m
      · rw [if_pos h2]
        simp [insertEntry, h1, h2]
      · rw [if_neg h2]
        simp only [insertEntry, if_neg h1, if_neg h2]
        rw [ih]

theorem sortedKeys_insertEntry {t : Tree} (hs : sortedKeys t = true)
    (n : String) (o : Obj) :
    sortedKeys (insertEntry n o t) = true := by
  induction t with
  | nil => rfl
  | cons e rest ih =>
    obtain ⟨m, p⟩ := e
    simp only [insertEntry]
    by_cases h1 : n = m
    · rw [if_pos h1]
      subst h1
      exact sorted_cons_of (sorted_tail hs) (sorted_cons_bound hs)
    · rw [if_neg h1]
      by_cases h2 : n < m
      · rw [if_pos h2]
        refine sorted_cons_of hs ?_
        intro k hk
        simp only [lookupT] at hk
        split at hk
        · next heq => rw [heq]; exact h2
        · exact lt_trans h2 (sorted_cons_bound hs k hk)
      · rw [if_neg h2]
        have hmn : m < n := by
          rcases lt_trichotomy n m with h | h | h
          · exact absurd h h2
          · exact absurd h h1
          · exact h
        refine sorted_cons_of (ih (sorted_tail hs)) ?_
        intro k hk
        rcases lookupT_insertEntry_isSome hk with h | h
        · rw [h]; exact hmn
        · exact sorted_cons_bound hs k h

theorem sortedKeys_removeEntry {t : Tree} (hs : sortedKeys t = true) (n : String) :
    sortedKeys (removeEntry n t) = true := by
  induction t with
  | nil => rfl
  | cons e rest ih =>
    obtain ⟨m, p⟩ := e
    simp only [removeEntry]
    by_cases h1 : n = m
    · rw [if_pos h1]; exact sorted_tail hs
    · rw [if_neg h1]
      refine sorted_cons_of (ih (sorted_tail hs)) ?_
      intro k hk
      exact sorted_cons_bound hs k (lookupT_removeEntry_isSome hk)

theorem lookupT_replaceChild_self {t : Tree} (hs : sortedKeys t = true)
    (n : String) (oid : Oid) :
    lookupT n (replaceChild n oid t) =
      match oid with
      | .zero => none
      | .obj o => if o = .tree [] then none else some o := by
  cases oid with
  | zero => exact lookupT_removeEntry_self hs
  | obj o =>
    simp only [replaceChild]
    by_cases h : o = .tree []
    · rw [if_pos h, if_pos h]
      exact lookupT_removeEntry_self hs
    · rw [if_neg h, if_neg h]
      exact lookupT_insertEntry_self n o t

theorem lookupT_replaceChild_ne {n k : String} (oid : Oid) (t : Tree) (h : k ≠ n) :
    lookupT k (replaceChild n oid t) = lookupT k t := by
  cases oid with
  | zero => exact lookupT_removeEntry_ne t h
  | obj o =>
    simp only [replaceChild]
    split
    · exact lookupT_removeEntry_ne t h
    · exact lookupT_insertEntry_ne o t h

theorem sortedKeys_replaceChild {t : Tree} (hs : sortedKeys t = true)
    (n : String) (oid : Oid) :
    sortedKeys (replaceChild n oid t) = true := by
  cases oid with
  | zero => exact sortedKeys_removeEntry hs n
  | obj o =>
    simp only [replaceChild]
    split
    · exact sortedKeys_removeEntry hs n
    · exact sortedKeys_insertEntry hs n o

end Josh


namespace Josh

theorem mergedTree_unfold (i1 i2 : Oid) :
    mergedTree i1 i2 =
      if i1 = i2 then i1
      else if i1 = emptyTreeId then i2
      else if i2 = emptyTreeId then i1
      else match i1, i2 with
        | .obj (.tree es1), .obj (.tree es2) => oidOfTree (mergedFold es1 es2 es1)
        | _, _ => i1 := by
  rcases i1 with _ | (d1 | es1 | ⟨t1, p1, m1⟩) <;>
    rcases i2 with _ | (d2 | es2 | ⟨t2, p2, m2⟩) <;>
    rw [mergedTree] <;> try simp

theorem mergedFold_nil (es1 acc : Tree) : mergedFold es1 [] acc = acc := by
  rw [mergedFold]

theorem mergedFold_cons (es1 acc rest : Tree) (n : String) (o2 : Obj) :
    mergedFold es1 ((n, o2) :: rest) acc =
      mergedFold es1 rest
        (match lookupT n es1 with
          | some e => replaceChild n (mergedTree (.obj o2) (.obj e)) acc
          | none => replaceChild n (.obj o2) acc) := by
  rw [mergedFold]
  congr 1
  split
  · next e hsome => rw [hsome]
  · next hnone => rw [hnone]

/-- The lookup-level behaviour of the entry fold of `merged_tree`. -/
theorem mergedFold_lookup (es1 : Tree) :
    ∀ (es2 acc : Tree), sortedKeys es2 = true → sortedKeys acc = true →
    ∀ k, lookupT k (mergedFold es1 es2 acc) =
      match lookupT k es2 with
      | none => lookupT k acc
      | some o2 =>
        match (match lookupT k es1 with
          | some e => mergedTree (Oid.obj o2) (Oid.obj e)
          | none => Oid.obj o2) with
        | .zero => none
        | .obj r => if r = .tree [] then none else some r := by
  intro es2
  induction es2 with
  | nil =>
    intro acc _ _ k
    rw [mergedFold_nil]
    simp [lookupT]
  | cons e rest ih =>
    intro acc hs2 hsacc k
    obtain ⟨n, o2⟩ := e
    rw [mergedFold_cons]
    by_cases hk : k = n
    · subst hk
      have hrest : lookupT k rest = none := by
        cases hlr : lookupT k rest with
        | none => rfl
        | some o =>
          exact absurd (sorted_cons_bound hs2 k (by simp [hlr])) (lt_irrefl k)
      cases hl : lookupT k es1 with
      | some e1 =>
        rw [ih _ (sorted_tail hs2) (sortedKeys_replaceChild hsacc k _) k, hrest]
        rw [lookupT_replaceChild_self hsacc]
        simp [lookupT]
      | none =>
        rw [ih _ (sorted_tail hs2) (sortedKeys_replaceChild hsacc k _) k, hrest]
        rw [lookupT_replaceChild_self hsacc]
        simp [lookupT]
    · cases hl : lookupT n es1 with
      | some e1 =>
        rw [ih _ (sorted_tail hs2) (sortedKeys_replaceChild hsacc n _) k]
        simp only [lookupT, if_neg hk]
        cases hlr : lookupT k rest with
        | none => exact lookupT_replaceChild_ne _ acc hk
        | some o2' => rfl
      | none =>
        rw [ih _ (sorted_tail hs2) (sortedKeys_replaceChild hsacc n _) k]
        simp only [lookupT, if_neg hk]
        cases hlr : lookupT k rest with
        | none => exact lookupT_replaceChild_ne _ acc hk
        | some o2' => rfl

/-- C4 counterexample: on a name collision at a blob position
`merged_tree` keeps the *second* argument's entry, not the first's as
the claim states. -/
theorem c4_collision_prefers_second_cex :
    mergedTree (oidOfTree [("f", .blob "1")]) (oidOfTree [("f", .blob "2")])
      = oidOfTree [("f", .blob "2")] ∧
    mergedTree (oidOfTree [("f", .blob "1")]) (oidOfTree [("f", .blob "2")])
      ≠ oidOfTree [("f", .blob "1")] := by
  have h : mergedTree (oidOfTree [("f", .blob "1")]) (oidOfTree [("f", .blob "2")])
      = oidOfTree [("f", .blob "2")] := by
    rw [mergedTree_unfold]
    rw [if_neg (by decide), if_neg (by decide), if_neg (by decide)]
    show oidOfTree (mergedFold [("f", .blob "1")] [("f", .blob "2")] [("f", .blob "1")])
      = oidOfTree [("f", .blob "2")]
    rw [mergedFold_cons, mergedFold_nil]
    have hmt : mergedTree (Oid.obj (.blob "2")) (Oid.obj (.blob "1"))
        = Oid.obj (.blob "2") := by
      rw [mergedTree_unfold]
      rw [if_neg (by decide), if_neg (by decide), if_neg (by decide)]
    simp [lookupT, hmt, replaceChild, insertEntry]
  exact ⟨h, by rw [h]; decide⟩

/-- C4 amended: `merged_tree` computes the deep key-wise union with the
source's short-circuits (`a = b` gives `a`, either side empty gives the
other); on a collision it recurses with the arguments swapped, so at a
blob or mixed position the *second* argument's entry wins; entry-wise,
for sorted trees, a name found on only one side keeps that side's entry
(an empty-tree entry being dropped) and a name found on both sides gets
the (swapped) recursive merge. -/
theorem c4_merged_union_amended :
    (∀ i, mergedTree i i = i) ∧
    (∀ i, mergedTree emptyTreeId i = i) ∧
    (∀ i, mergedTree i emptyTreeId = i) ∧
    (∀ o1 o2 : Obj, ¬(isTreeObj o1 = true ∧ isTreeObj o2 = true) →
      Oid.obj o1 ≠ emptyTreeId → Oid.obj o2 ≠ emptyTreeId →
      mergedTree (Oid.obj o2) (Oid.obj o1) = Oid.obj o2) ∧
    (∀ es1 es2 : Tree, Oid.obj (Obj.tree es1) ≠ Oid.obj (Obj.tree es2) →
      es1 ≠ [] → es2 ≠ [] →
      mergedTree (oidOfTree es1) (oidOfTree es2) = oidOfTree (mergedFold es1 es2 es1)) ∧
    (∀ es1 es2 : Tree, sortedKeys es1 = true → sortedKeys es2 = true →
      ∀ k, lookupT k (mergedFold es1 es2 es1) =
        match lookupT k es2 with
        | none => lookupT k es1
        | some o2 =>
          match (match lookupT k es1 with
            | some e => mergedTree (Oid.obj o2) (Oid.obj e)
            | none => Oid.obj o2) with
          | .zero => none
          | .obj r => if r = .tree [] then none else some r) := by
  refine ⟨?_, ?_, ?_, ?_, ?_, ?_⟩
  · intro i
    rw [mergedTree_unfold, if_pos rfl]
  · intro i
    rw [mergedTree_unfold]
    by_cases h : emptyTreeId = i
    · rw [if_pos h]; exact h
    · rw [if_neg h, if_pos rfl]
  · intro i
    rw [mergedTree_unfold]
    by_cases h : i = emptyTreeId
    · rw [if_pos h]
    · rw [if_neg h, if_neg h, if_pos rfl]
  · intro o1 o2 hnt h1 h2
    rw [mergedTree_unfold]
    by_cases heq : Oid.obj o2 = Oid.obj o1
    · rw [if_pos heq]
    · rw [if_neg heq, if_neg h2, if_neg h1]
      cases o1 <;> cases o2 <;> simp_all [isTreeObj]
  · intro es1 es2 hne h1 h2
    rw [mergedTree_unfold]
    rw [if_neg (by simpa [oidOfTree] using hne)]
    rw [if_neg (by simp only [oidOfTree, emptyTreeId, ne_eq, Oid.obj.injEq,
      Obj.tree.injEq]; exact h1)]
    rw [if_neg (by simp only [oidOfTree, emptyTreeId, ne_eq, Oid.obj.injEq,
      Obj.tree.injEq]; exact h2)]
    simp only [oidOfTree]
  · intro es1 es2 hs1 hs2 k
    exact mergedFold_lookup es1 es2 es1 hs2 hs1 k

/-- C4 witness: entry-wise union on two sorted one-entry trees with
distinct names keeps both entries. -/
theorem c4_witness :
    lookupT "a" (mergedFold [("a", Obj.blob "x")] [("b", Obj.blob "y")]
      [("a", Obj.blob "x")]) = some (Obj.blob "x") := by
  have h := c4_merged_union_amended.2.2.2.2.2 [("a", Obj.blob "x")]
    [("b", Obj.blob "y")] (by decide) (by decide) "a"
  simpa [lookupT] using h

end Josh

namespace Josh

theorem getPathO_append (a b : List String) :
    ∀ x : Obj, getPathO x (a ++ b) = (getPathO x a).bind (fun o => getPathO o b) := by
  induction a with
  | nil => intro x; simp [getPathO]
  | cons n a ih =>
    intro x
    cases x with
    | tree es =>
      simp only [List.cons_append, getPathO]
      cases lookupT n es with
      | some o => exact ih o
      | none => simp
    | blob d => simp [getPathO]
    | commit t ps m => simp [getPathO]

theorem subtreeEntries_nilT (p : List String) : subtreeEntries [] p = [] := by
  cases p with
  | nil => rfl
  | cons n ps => simp [subtreeEntries, treeGetPath, getPathO, lookupT]

theorem replaceChild_drop_nil {oid : Oid} (n : String)
    (h : oid = Oid.zero ∨ oid = emptyTreeId) : replaceChild n oid [] = [] := by
  rcases h with h | h <;> subst h <;> simp [replaceChild, removeEntry, emptyTreeId]

theorem replaceSubtreeRev_empty_base :
    ∀ (q : List String), q ≠ [] → ∀ (oid : Oid), oid = Oid.zero ∨ oid = emptyTreeId →
    replaceSubtreeRev q oid [] = .ok [] := by
  intro q
  induction q with
  | nil => intro h; exact absurd rfl h
  | cons n q ih =>
    intro _ oid hoid
    cases q with
    | nil =>
      show Except.ok (replaceChild n oid []) = Except.ok []
      rw [replaceChild_drop_nil n hoid]
    | cons m q' =>
      show replaceSubtreeRev (m :: q')
        (oidOfTree (replaceChild n oid (subtreeEntries [] ((m :: q').reverse)))) [] = .ok []
      rw [subtreeEntries_nilT, replaceChild_drop_nil n hoid]
      exact ih (by simp) (oidOfTree []) (Or.inr rfl)

theorem replaceSubtreeRev_build :
    ∀ (q : List String), q ≠ [] → ∀ (o : Obj), o ≠ .tree [] →
    ∃ t', replaceSubtreeRev q (.obj o) [] = .ok t' ∧
      getPathO (.tree t') q.reverse = some o := by
  intro q
  induction q with
  | nil => intro h; exact absurd rfl h
  | cons n q ih =>
    intro _ o ho
    cases q with
    | nil =>
      refine ⟨[(n, o)], ?_, ?_⟩
      · show Except.ok (replaceChild n (.obj o) []) = _
        simp [replaceChild, ho, insertEntry]
      · simp [getPathO, lookupT]
    | cons m q' =>
      have hsub : replaceChild n (.obj o) (subtreeEntries [] ((m :: q').reverse))
          = [(n, o)] := by
        rw [subtreeEntries_nilT]
        simp [replaceChild, ho, insertEntry]
      obtain ⟨t', h1, h3⟩ := ih (by simp) (.tree [(n, o)]) (by simp)
      refine ⟨t', ?_, ?_⟩
      · show replaceSubtreeRev (m :: q')
          (oidOfTree (replaceChild n (.obj o) (subtreeEntries [] ((m :: q').reverse)))) []
          = .ok t'
        rw [hsub]
        exact h1
      · show getPathO (.tree t') ((n :: m :: q').reverse) = some o
        rw [List.reverse_cons, getPathO_append, h3]
        simp [getPathO, lookupT]

/-- C6: applying `Prefix(p)` (placing the whole tree under `p` in an
empty tree) and then `Subdir(p)` to the result returns the original tree,
for every non-empty path. -/
theorem c6_subdir_prefix_roundtrip (p : List String) (t : Tree) (hp : p ≠ []) :
    (prefixApply p t).map (subdirApply p) = .ok t := by
  by_cases ht : t = []
  · subst ht
    have h := replaceSubtreeRev_empty_base p.reverse (by simpa using hp)
      (oidOfTree []) (Or.inr rfl)
    unfold prefixApply replaceSubtree
    rw [h]
    cases p with
    | nil => exact absurd rfl hp
    | cons n ps => simp [Except.map, subdirApply, treeGetPath, getPathO, lookupT]
  · obtain ⟨t', h1, h3⟩ := replaceSubtreeRev_build p.reverse (by simpa using hp)
      (.tree t) (by simpa using ht)
    unfold prefixApply replaceSubtree
    simp only [oidOfTree]
    rw [h1]
    rw [List.reverse_reverse] at h3
    cases p with
    | nil => exact absurd rfl hp
    | cons n ps =>
      simp only [Except.map]
      unfold subdirApply treeGetPath
      rw [h3]

/-- C6 witness at path `a/b` and a one-blob tree. -/
theorem c6_witness :
    (prefixApply ["a", "b"] [("x", Obj.blob "1")]).map (subdirApply ["a", "b"])
      = .ok [("x", Obj.blob "1")] :=
  c6_subdir_prefix_roundtrip ["a", "b"] [("x", Obj.blob "1")] (by decide)

end Josh

namespace Josh

theorem canon_tail {e : String × Obj} {t : Tree}
    (h : canonicalEntries (e :: t) = true) : canonicalEntries t = true := by
  obtain ⟨m, p⟩ := e
  cases t with
  | nil => rfl
  | cons e2 rest =>
    obtain ⟨m2, p2⟩ := e2
    simp only [canonicalEntries, Bool.and_eq_true] at h
    exact h.2

theorem canon_head_obj {m : String} {p : Obj} {t : Tree}
    (h : canonicalEntries ((m, p) :: t) = true) : canonicalObj p = true := by
  cases t with
  | nil => simpa [canonicalEntries] using h
  | cons e2 rest =>
    obtain ⟨m2, p2⟩ := e2
    simp only [canonicalEntries, Bool.and_eq_true] at h
    exact h.1.2

theorem canon_sorted {t : Tree} (h : canonicalEntries t = true) :
    sortedKeys t = true := by
  induction t with
  | nil => rfl
  | cons e rest ih =>
    obtain ⟨m, p⟩ := e
    cases rest with
    | nil => rfl
    | cons e2 rest2 =>
      obtain ⟨m2, p2⟩ := e2
      simp only [canonicalEntries, Bool.and_eq_true] at h
      simp only [sortedKeys, Bool.and_eq_true]
      exact ⟨h.1.1, ih h.2⟩

theorem canon_lookup {n : String} {t : Tree} {o : Obj}
    (hc : canonicalEntries t = true) (h : lookupT n t = some o) :
    canonicalObj o = true := by
  induction t with
  | nil => simp [lookupT] at h
  | cons e rest ih =>
    obtain ⟨m, p⟩ := e
    simp only [lookupT] at h
    split at h
    · cases h; exact canon_head_obj hc
    · exact ih (canon_tail hc) h

theorem treeGetPath_single (t : Tree) (n : String) :
    treeGetPath t [n] = lookupT n t := by
  simp only [treeGetPath, getPathO]
  cases lookupT n t <;> rfl

theorem subtreeEntries_single (t : Tree) (n : String) :
    subtreeEntries t [n] = childEntries t n := by
  unfold subtreeEntries childEntries
  rw [treeGetPath_single]

theorem subtreeEntries_cons (t : Tree) (n : String) (r : List String) (hr : r ≠ []) :
    subtreeEntries t (n :: r) = subtreeEntries (childEntries t n) r := by
  cases r with
  | nil => exact absurd rfl hr
  | cons m r' =>
    unfold subtreeEntries childEntries
    simp only [treeGetPath, getPathO]
    cases hl : lookupT n t with
    | none => rfl
    | some o =>
      cases o with
      | tree es => rfl
      | blob d => simp [getPathO, treeGetPath, lookupT]
      | commit tc ps mm => simp [getPathO, treeGetPath, lookupT]

theorem rsr_snoc :
    ∀ (q : List String), q ≠ [] → ∀ (n : String) (oid : Oid) (t : Tree),
    replaceSubtreeRev (q ++ [n]) oid t =
      (replaceSubtreeRev q oid (childEntries t n)).map
        (fun sub => replaceChild n (oidOfTree sub) t) := by
  intro q
  induction q with
  | nil => intro h; exact absurd rfl h
  | cons m q0 ih =>
    intro _ n oid t
    cases q0 with
    | nil =>
      show replaceSubtreeRev [n]
        (oidOfTree (replaceChild m oid (subtreeEntries t [n].reverse))) t = _
      rw [List.reverse_singleton, subtreeEntries_single]
      rfl
    | cons m2 q' =>
      show replaceSubtreeRev ((m2 :: q') ++ [n])
        (oidOfTree (replaceChild m oid (subtreeEntries t (((m2 :: q') ++ [n]).reverse)))) t
        = _
      have hrev : ((m2 :: q') ++ [n]).reverse = n :: (m2 :: q').reverse := by
        rw [List.reverse_append]
        rfl
      rw [hrev, subtreeEntries_cons t n _ (by simp)]
      rw [ih (by simp) n _ t]
      rfl

theorem replaceSubtree_cons (n : String) (ps : List String) (hps : ps ≠ [])
    (oid : Oid) (t : Tree) :
    replaceSubtree (n :: ps) oid t =
      (replaceSubtree ps oid (childEntries t n)).map
        (fun sub => replaceChild n (oidOfTree sub) t) := by
  unfold replaceSubtree
  rw [List.reverse_cons]
  exact rsr_snoc ps.reverse (by simpa using hps) n oid t

theorem replaceSubtree_single (n : String) (oid : Oid) (t : Tree) :
    replaceSubtree [n] oid t = .ok (replaceChild n oid t) := rfl

theorem replaceSubtree_zero_nil (ps : List String) (hps : ps ≠ []) :
    replaceSubtree ps Oid.zero [] = .ok [] :=
  replaceSubtreeRev_empty_base ps.reverse (by simpa using hps) Oid.zero (Or.inl rfl)

theorem treeGetPath_cons (t : Tree) (n : String) (ps : List String) (hps : ps ≠ []) :
    treeGetPath t (n :: ps) =
      match lookupT n t with
      | some o => getPathO o ps
      | none => none := by
  simp only [treeGetPath, getPathO]

/-- C7 amended: hiding at `p` and then unapplying against the original
tree restores it, for a canonical tree and a path whose strict prefixes
resolve to nothing or to non-empty trees and which does not itself name
an empty tree. -/
theorem c7_hide_unhide_amended :
    ∀ (p : List String) (t : Tree), p ≠ [] →
    canonicalEntries t = true → pathOk t p = true →
    (hideApply p t).bind (fun t' => hideUnapply p t' t) = .ok t := by
  intro p
  induction p with
  | nil => intro t h; exact absurd rfl h
  | cons n ps ih =>
    intro t _ hcan hok
    have hsorted : sortedKeys t = true := canon_sorted hcan
    cases ps with
    | nil =>
      unfold hideApply
      rw [replaceSubtree_single]
      simp only [Except.bind]
      unfold hideUnapply
      rw [treeGetPath_single]
      cases hl : lookupT n t with
      | none =>
        simp only [replaceSubtree_single]
        simp only [replaceChild]
        rw [removeEntry_absent hl, removeEntry_absent hl]
      | some o =>
        have ho : o ≠ .tree [] := by
          simp only [pathOk, hl, decide_eq_true_eq] at hok
          intro hh
          exact hok (by rw [hh])
        simp only [replaceSubtree_single]
        simp only [replaceChild]
        show Except.ok (replaceChild n (Oid.obj o) (removeEntry n t)) = Except.ok t
        simp only [replaceChild, if_neg ho]
        rw [insertEntry_removeEntry hsorted hl]
    | cons m ps' =>
      have hps : (m :: ps') ≠ [] := by simp
      unfold hideApply
      rw [replaceSubtree_cons n (m :: ps') hps]
      cases hl : lookupT n t with
      | none =>
        have hchild : childEntries t n = [] := by simp [childEntries, hl]
        rw [hchild, replaceSubtree_zero_nil _ hps]
        simp only [Except.map, Except.bind]
        rw [show replaceChild n (oidOfTree []) t = removeEntry n t from rfl]
        rw [removeEntry_absent hl]
        unfold hideUnapply
        rw [treeGetPath_cons t n _ hps, hl]
        rw [replaceSubtree_cons n (m :: ps') hps]
        rw [hchild, replaceSubtree_zero_nil _ hps]
        simp only [Except.map]
        rw [show replaceChild n (oidOfTree []) t = removeEntry n t from rfl]
        rw [removeEntry_absent hl]
      | some o =>
        cases o with
        | blob d =>
          simp [pathOk, hl] at hok
        | commit tc pcs mm =>
          simp [pathOk, hl] at hok
        | tree es =>
          have hokes : es ≠ [] ∧ pathOk es (m :: ps') = true := by
            simp only [pathOk, hl, Bool.and_eq_true, decide_eq_true_eq] at hok
            exact hok
          have hcanes : canonicalEntries es = true := canon_lookup hcan hl
          have hchild : childEntries t n = es := by simp [childEntries, hl]
          rw [hchild]
          obtain ⟨es', hes'⟩ := replaceSubtree_ok (m :: ps') Oid.zero es hps
          have hinner := ih es hps hcanes hokes.2
          unfold hideApply at hinner
          rw [hes'] at hinner
          simp only [Except.bind] at hinner
          rw [hes']
          simp only [Except.map, Except.bind]
          unfold hideUnapply
          rw [treeGetPath_cons t n _ hps, hl]
          unfold hideUnapply at hinner
          have hhid : (match getPathO (Obj.tree es) (m :: ps') with
              | some o => Oid.obj o
              | none => Oid.zero) =
              (match treeGetPath es (m :: ps') with
              | some o => Oid.obj o
              | none => Oid.zero) := by
            simp only [treeGetPath]
          rw [hhid]
          set hidden := (match treeGetPath es (m :: ps') with
            | some o => Oid.obj o
            | none => Oid.zero) with hhidden
          rw [replaceSubtree_cons n (m :: ps') hps]
          have hchild' : childEntries (replaceChild n (oidOfTree es') t) n = es' := by
            by_cases hes'nil : es' = []
            · subst hes'nil
              rw [show replaceChild n (oidOfTree []) t = removeEntry n t from rfl]
              simp [childEntries, lookupT_removeEntry_self hsorted]
            · have : oidOfTree es' ≠ Oid.zero ∧ Obj.tree es' ≠ Obj.tree [] := by
                constructor
                · simp [oidOfTree]
                · simpa using hes'nil
              simp only [childEntries, oidOfTree, replaceChild, if_neg this.2]
              rw [lookupT_insertEntry_self]
            
          rw [hchild', hinner]
          simp only [Except.map]
          have hes : Obj.tree es ≠ Obj.tree [] := by simpa using hokes.1
          show Except.ok (replaceChild n (oidOfTree es) (replaceChild n (oidOfTree es') t))
            = Except.ok t
          by_cases hes'nil : es' = []
          · subst hes'nil
            rw [show replaceChild n (oidOfTree []) t = removeEntry n t from rfl]
            simp only [replaceChild, oidOfTree, if_neg hes]
            rw [insertEntry_removeEntry hsorted hl]
          · simp only [replaceChild, oidOfTree, if_neg hes,
              if_neg (show Obj.tree es' ≠ Obj.tree [] by simpa using hes'nil)]
            rw [insertEntry_insertEntry, insertEntry_self hsorted hl]

/-- C7 witness: hide/unhide at `a/b` inside a canonical two-level tree. -/
theorem c7_witness :
    (hideApply ["a", "b"] [("a", Obj.tree [("b", Obj.blob "1")])]).bind
      (fun t' => hideUnapply ["a", "b"] t' [("a", Obj.tree [("b", Obj.blob "1")])])
    = .ok [("a", Obj.tree [("b", Obj.blob "1")])] :=
  c7_hide_unhide_amended ["a", "b"] [("a", Obj.tree [("b", Obj.blob "1")])]
    (by decide) (by decide) (by decide)

/-- C7 counterexample: hiding `a/b` in a tree where `a` is a blob deletes
the blob, and unapplying against the original does not restore it. -/
theorem c7_hide_unhide_cex :
    (hideApply ["a", "b"] [("a", Obj.blob "1")]).bind
      (fun t' => hideUnapply ["a", "b"] t' [("a", Obj.blob "1")])
    = .ok [] ∧ ([] : Tree) ≠ [("a", Obj.blob "1")] := by
  constructor
  · rfl
  · decide

end Josh

namespace Josh

theorem lookupC_set_self (c : Cache) (k : CKey) (v : Oid) :
    lookupC (cacheSet c k v) k = some v := by
  simp [cacheSet, lookupC]

theorem lookupC_set_ne (c : Cache) (k k' : CKey) (v : Oid) (h : k' ≠ k) :
    lookupC (cacheSet c k v) k' = lookupC c k' := by
  simp [cacheSet, lookupC, h]

theorem mem_walkAuxL {x : Obj} : ∀ {l : List Obj},
    x ∈ walkAuxL l ↔ ∃ c ∈ l, x ∈ walkAux c := by
  intro l
  induction l with
  | nil => simp [walkAuxL]
  | cons c cs ih =>
    show x ∈ walkAux c ++ walkAuxL cs ↔ _
    rw [List.mem_append, ih]
    constructor
    · rintro (h | ⟨c', hc', hx⟩)
      · exact ⟨c, List.mem_cons_self c cs, h⟩
      · exact ⟨c', List.mem_cons_of_mem c hc', hx⟩
    · rintro ⟨c', hc', hx⟩
      rcases List.mem_cons.mp hc' with h | h
      · subst h; exact Or.inl hx
      · exact Or.inr ⟨c', h, hx⟩

theorem walkAux_size :
    ∀ (n : Nat) (o x : Obj), sizeOf o ≤ n → x ∈ walkAux o → sizeOf x ≤ sizeOf o := by
  intro n
  induction n with
  | zero =>
    intro o x hs hx
    exfalso
    cases o <;> simp_arith at hs
  | succ n ih =>
    intro o x hs hx
    cases o with
    | blob d => simp [walkAux] at hx
    | tree es => simp [walkAux] at hx
    | commit t ps m =>
      rw [show walkAux (.commit t ps m) = walkAuxL ps ++ [.commit t ps m] from rfl] at hx
      rcases List.mem_append.mp hx with hx | hx
      · obtain ⟨p, hp, hxp⟩ := mem_walkAuxL.mp hx
        have hmem := List.sizeOf_lt_of_mem hp
        have hps : sizeOf p < sizeOf (Obj.commit t ps m) := by
          simp only [Obj.commit.sizeOf_spec]
          omega
        have hp' : sizeOf p ≤ n := by omega
        exact le_trans (ih p x hp' hxp) (le_of_lt hps)
      · simp only [List.mem_singleton] at hx
        subst hx
        exact le_refl _

theorem mem_dedupKeepFirst {x : Obj} :
    ∀ (l seen : List Obj), x ∈ dedupKeepFirst seen l ↔ (x ∈ l ∧ x ∉ seen) := by
  intro l
  induction l with
  | nil => intro seen; simp [dedupKeepFirst]
  | cons y ys ih =>
    intro seen
    simp only [dedupKeepFirst]
    by_cases hy : y ∈ seen
    · rw [if_pos hy, ih]
      constructor
      · rintro ⟨h1, h2⟩
        exact ⟨List.mem_cons_of_mem y h1, h2⟩
      · rintro ⟨h1, h2⟩
        rcases List.mem_cons.mp h1 with h | h
        · subst h; exact absurd hy h2
        · exact ⟨h, h2⟩
    · rw [if_neg hy]
      simp only [List.mem_cons, ih]
      constructor
      · rintro (h | ⟨h1, h2⟩)
        · subst h; exact ⟨Or.inl rfl, hy⟩
        · tauto
      · rintro ⟨h1 | h1, h2⟩ <;> tauto

theorem nodup_dedupKeepFirst :
    ∀ (l seen : List Obj), (dedupKeepFirst seen l).Nodup := by
  intro l
  induction l with
  | nil => intro seen; simp [dedupKeepFirst]
  | cons y ys ih =>
    intro seen
    simp only [dedupKeepFirst]
    by_cases hy : y ∈ seen
    · rw [if_pos hy]; exact ih seen
    · rw [if_neg hy]
      refine List.nodup_cons.mpr ⟨?_, ih (y :: seen)⟩
      intro hmem
      exact ((mem_dedupKeepFirst ys (y :: seen)).mp hmem).2 (List.mem_cons_self y seen)

theorem dedupKeepFirst_append_singleton {a : Obj} :
    ∀ (l seen : List Obj), a ∉ seen → a ∉ l →
    dedupKeepFirst seen (l ++ [a]) = dedupKeepFirst seen l ++ [a] := by
  intro l
  induction l with
  | nil => intro seen ha _; simp [dedupKeepFirst, ha]
  | cons y ys ih =>
    intro seen ha hal
    have hay : a ≠ y := fun h => hal (h ▸ List.mem_cons_self y ys)
    have hays : a ∉ ys := fun h => hal (List.mem_cons_of_mem y h)
    rw [show (y :: ys) ++ [a] = y :: (ys ++ [a]) from rfl]
    simp only [dedupKeepFirst]
    by_cases hy : y ∈ seen
    · rw [if_pos hy, if_pos hy]
      exact ih seen ha hays
    · rw [if_neg hy, if_neg hy]
      rw [ih (y :: seen) (fun h => by
        rcases List.mem_cons.mp h with h | h
        · exact hay h
        · exact ha h) hays]
      exact (List.cons_append _ _ _).symm

theorem walkList_commit (t : Obj) (ps : List Obj) (m : Nat) :
    walkList (objOid (.commit t ps m)) =
      dedupKeepFirst [] (walkAuxL ps) ++ [.commit t ps m] := by
  have hnm : (Obj.commit t ps m) ∉ walkAuxL ps := by
    intro hmem
    obtain ⟨p, hp, hx⟩ := mem_walkAuxL.mp hmem
    have h1 := walkAux_size (sizeOf p) p _ (le_refl _) hx
    have h2 := List.sizeOf_lt_of_mem hp
    have h3 : sizeOf p < sizeOf (Obj.commit t ps m) := by
      simp only [Obj.commit.sizeOf_spec]
      omega
    omega
  show dedupKeepFirst [] (walkAux (.commit t ps m)) = _
  rw [show walkAux (.commit t ps m) = walkAuxL ps ++ [.commit t ps m] from rfl]
  exact dedupKeepFirst_append_singleton _ [] (by simp) hnm

theorem afcStep_err (spec : String) (e : EErr) (st : Cache × Cache) (c : Obj) :
    afcStep spec (atcErr e) st c =
      (cacheSet st.1 (spec, objOid c) Oid.zero,
       cacheSet st.2 (spec, Oid.zero) (objOid c)) := rfl

theorem afcfold_err_preserve (spec : String) (e : EErr) :
    ∀ (l : List Obj) (st : Cache × Cache) (k : CKey),
    (∀ c ∈ l, k ≠ (spec, objOid c)) →
    lookupC (l.foldl (afcStep spec (atcErr e)) st).1 k = lookupC st.1 k := by
  intro l
  induction l with
  | nil => intro st k _; rfl
  | cons y ys ih =>
    intro st k hk
    rw [List.foldl_cons, ih _ k (fun c hc => hk c (List.mem_cons_of_mem y hc))]
    rw [afcStep_err]
    exact lookupC_set_ne _ _ k _ (hk y (List.mem_cons_self y ys))

theorem afcfold_err_bwd_preserve (spec : String) (e : EErr) :
    ∀ (l : List Obj) (st : Cache × Cache) (k : CKey),
    (∀ c ∈ l, k ≠ (spec, Oid.zero)) →
    lookupC (l.foldl (afcStep spec (atcErr e)) st).2 k = lookupC st.2 k := by
  intro l
  induction l with
  | nil => intro st k _; rfl
  | cons y ys ih =>
    intro st k hk
    rw [List.foldl_cons, ih _ k (fun c hc => hk c (List.mem_cons_of_mem y hc))]
    rw [afcStep_err]
    exact lookupC_set_ne _ _ k _ (hk y (List.mem_cons_self y ys))

theorem afcfold_err_fwd (spec : String) (e : EErr) :
    ∀ (l : List Obj) (st : Cache × Cache), l.Nodup → ∀ c ∈ l,
    lookupC (l.foldl (afcStep spec (atcErr e)) st).1 (spec, objOid c) = some Oid.zero := by
  intro l
  induction l with
  | nil => intro st _ c hc; cases hc
  | cons y ys ih =>
    intro st hnd c hc
    rcases List.mem_cons.mp hc with h | h
    · subst h
      rw [List.foldl_cons]
      have hpre : ∀ c' ∈ ys, (spec, objOid c) ≠ (spec, objOid c') := by
        intro c' hc' hh
        have : c = c' := by
          have := congrArg Prod.snd hh
          simpa [objOid] using this
        exact (List.nodup_cons.mp hnd).1 (this ▸ hc')
      rw [afcfold_err_preserve spec e ys _ _ hpre, afcStep_err]
      exact lookupC_set_self _ _ _
    · rw [List.foldl_cons]
      exact ih _ (List.nodup_cons.mp hnd).2 c h

theorem afcfold_err_bwd (spec : String) (e : EErr) :
    ∀ (l : List Obj) (st : Cache × Cache) (a : Obj), l.getLast? = some a →
    lookupC (l.foldl (afcStep spec (atcErr e)) st).2 (spec, Oid.zero)
      = some (objOid a) := by
  intro l
  induction l with
  | nil => intro st a ha; cases ha
  | cons y ys ih =>
    intro st a ha
    cases ys with
    | nil =>
      simp only [List.getLast?_singleton, Option.some.injEq] at ha
      subst ha
      rw [List.foldl_cons, List.foldl_nil, afcStep_err]
      exact lookupC_set_self _ _ _
    | cons z zs =>
      rw [List.getLast?_cons_cons] at ha
      rw [List.foldl_cons]
      exact ih _ a ha

/-- C8: with an `apply_to_commit` that fails on every commit, the walk of
`apply_filter_cached` substitutes `zero` for every walked commit and
continues (so every walked commit gets a forward entry of `zero`), the
backward direction is recorded as well, the call returns the zero oid
rather than propagating the error; and for any `apply_to_commit`
whatsoever, after the call the tip always has a forward entry and the
returned oid is that entry. -/
theorem c8_walk_error_substitution (spec : String) (e : EErr) (t : Obj)
    (ps : List Obj) (m : Nat) (fwd bwd : Cache)
    (hnc : cacheHas fwd (spec, objOid (.commit t ps m)) = false) :
    (∀ c ∈ walkList (objOid (.commit t ps m)),
      lookupC (applyFilterCachedWith spec (atcErr e)
        (objOid (.commit t ps m)) fwd bwd).2.1 (spec, objOid c) = some Oid.zero) ∧
    lookupC (applyFilterCachedWith spec (atcErr e)
      (objOid (.commit t ps m)) fwd bwd).2.2 (spec, Oid.zero)
      = some (objOid (.commit t ps m)) ∧
    (applyFilterCachedWith spec (atcErr e) (objOid (.commit t ps m)) fwd bwd).1
      = Oid.zero ∧
    (∀ (atc : Obj → Cache → Cache → Except EErr Oid × Cache × Cache)
      (fwd0 bwd0 : Cache),
      cacheHas (applyFilterCachedWith spec atc (objOid (.commit t ps m))
        fwd0 bwd0).2.1 (spec, objOid (.commit t ps m)) = true ∧
      (applyFilterCachedWith spec atc (objOid (.commit t ps m)) fwd0 bwd0).1
        = cacheGet (applyFilterCachedWith spec atc (objOid (.commit t ps m))
            fwd0 bwd0).2.1 (spec, objOid (.commit t ps m))) := by
  have hwalknd : (walkList (objOid (.commit t ps m))).Nodup := by
    show (dedupKeepFirst [] (walkAux (.commit t ps m))).Nodup
    exact nodup_dedupKeepFirst _ []
  have htipmem : (Obj.commit t ps m) ∈ walkList (objOid (.commit t ps m)) := by
    rw [walkList_commit]
    simp
  have hlast : (walkList (objOid (.commit t ps m))).getLast?
      = some (Obj.commit t ps m) := by
    rw [walkList_commit]
    exact List.getLast?_concat _
  have hfwd := afcfold_err_fwd spec e (walkList (objOid (.commit t ps m)))
    (fwd, bwd) hwalknd
  have hbwd := afcfold_err_bwd spec e (walkList (objOid (.commit t ps m)))
    (fwd, bwd) _ hlast
  have htip := hfwd _ htipmem
  have hhas : cacheHas ((walkList (objOid (.commit t ps m))).foldl
      (afcStep spec (atcErr e)) (fwd, bwd)).1
      (spec, objOid (.commit t ps m)) = true := by
    rw [cacheHas, htip]
    rfl
  have hrun : applyFilterCachedWith spec (atcErr e) (objOid (.commit t ps m)) fwd bwd
      = (Oid.zero,
         ((walkList (objOid (.commit t ps m))).foldl
           (afcStep spec (atcErr e)) (fwd, bwd)).1,
         ((walkList (objOid (.commit t ps m))).foldl
           (afcStep spec (atcErr e)) (fwd, bwd)).2) := by
    simp only [applyFilterCachedWith]
    rw [if_neg (by rw [hnc]; exact Bool.false_ne_true)]
    rw [if_pos hhas]
    rw [cacheGet, htip]
    rfl
  refine ⟨?_, ?_, ?_, ?_⟩
  · intro c hc
    rw [hrun]
    exact hfwd c hc
  · rw [hrun]
    exact hbwd
  · rw [hrun]
  · intro atc fwd0 bwd0
    simp only [applyFilterCachedWith]
    by_cases h0 : cacheHas fwd0 (spec, objOid (.commit t ps m)) = true
    · rw [if_pos h0]
      exact ⟨h0, rfl⟩
    · rw [if_neg h0]
      by_cases h1 : cacheHas ((walkList (objOid (.commit t ps m))).foldl
          (afcStep spec atc) (fwd0, bwd0)).1 (spec, objOid (.commit t ps m)) = true
      · rw [if_pos h1]
        exact ⟨h1, rfl⟩
      · rw [if_neg h1]
        constructor
        · rw [cacheHas, lookupC_set_self]
          rfl
        · rfl

/-- C8 witness: a two-commit history with an always-failing filter. -/
theorem c8_witness :
    lookupC (applyFilterCachedWith "s" (atcErr (.josh "boom"))
      (objOid cB) [] []).2.1 ("s", objOid cA) = some Oid.zero :=
  (c8_walk_error_substitution "s" (.josh "boom") (.tree treeB) [cA] 1 [] []
    (by rfl)).1 cA (by decide)

end Josh

namespace Josh

/-! C3: cache coherence. -/

theorem afcStep_eq (spec : String)
    (atc : Obj → Cache → Cache → Except EErr Oid × Cache × Cache)
    (st : Cache × Cache) (c : Obj) :
    afcStep spec atc st c =
      (cacheSet (atc c st.1 st.2).2.1 (spec, objOid c)
         (match (atc c st.1 st.2).1 with
          | Except.ok v => v | Except.error _ => Oid.zero),
       cacheSet (atc c st.1 st.2).2.2
         (spec, (match (atc c st.1 st.2).1 with
                 | Except.ok v => v | Except.error _ => Oid.zero))
         (objOid c)) := rfl

theorem afcStep_inv (spec : String)
    (atc : Obj → Cache → Cache → Except EErr Oid × Cache × Cache)
    (hatc : AtcOk spec atc) (st : Cache × Cache)
    (hinv : CacheInv st.1 st.2) (c : Obj) :
    CacheInv (afcStep spec atc st c).1 (afcStep spec atc st c).2 := by
  obtain ⟨hinv2, hagree, hsame⟩ := hatc c st.1 st.2 hinv
  intro s f o hf hb
  rw [afcStep_eq] at hb ⊢
  dsimp only at hb ⊢
  generalize hfv : (match (atc c st.1 st.2).1 with
    | Except.ok v => v | Except.error _ => Oid.zero) = fv at hb ⊢
  by_cases hk : (s, f) = ((spec, fv) : CKey)
  · rw [hk, lookupC_set_self] at hb
    injection hb with hb
    subst hb
    rw [Prod.mk.injEq] at hk
    obtain ⟨hs, hff⟩ := hk
    subst hs; subst hff
    exact lookupC_set_self _ _ _
  · rw [lookupC_set_ne _ _ _ _ hk] at hb
    have hfw := hinv2 s f o hf hb
    by_cases hk2 : (s, o) = ((spec, objOid c) : CKey)
    · rw [hk2, lookupC_set_self]
      rw [hk2, hsame] at hfw
      have hok := hagree f hfw
      rw [hok] at hfv
      simp only at hfv
      rw [hfv]
    · rw [lookupC_set_ne _ _ _ _ hk2]
      exact hfw

theorem afcfold_inv (spec : String)
    (atc : Obj → Cache → Cache → Except EErr Oid × Cache × Cache)
    (hatc : AtcOk spec atc) :
    ∀ (l : List Obj) (st : Cache × Cache), CacheInv st.1 st.2 →
    CacheInv (l.foldl (afcStep spec atc) st).1
             (l.foldl (afcStep spec atc) st).2 := by
  intro l
  induction l with
  | nil => intro st h; exact h
  | cons y ys ih =>
    intro st h
    rw [List.foldl_cons]
    exact ih _ (afcStep_inv spec atc hatc st h y)

/-- C3 counterexample: after the `:/x` pass over the history `cA ← cB`
(both commits filter to the same tree, so both map forward to `cAf`),
the original `cA` is walked and has forward entry `cAf ≠ zero`, but the
backward entry for `cAf` is `cB`, not `cA`: the later commit overwrote
it, so `forward[(s, o)] = f` does not imply `backward[(s, f)] = o`. -/
theorem c3_cache_coherence_cex :
    (cA ∈ walkList (objOid cB)) ∧
    lookupC c3Run.2.1 (filterSpec (.subdir ["x"]), objOid cA)
      = some (objOid cAf) ∧
    objOid cAf ≠ Oid.zero ∧
    lookupC c3Run.2.2 (filterSpec (.subdir ["x"]), objOid cAf)
      = some (objOid cB) ∧
    objOid cB ≠ objOid cA := by
  decide

/-- C3 (amended): the coherence that does hold is the backward-to-forward
direction, as an invariant: if every `apply_to_commit` call preserves it
and honours the walk's caching contract (`AtcOk`), then
`apply_filter_cached` preserves it — every backward entry with a
non-zero filtered oid points to an original whose forward entry is that
filtered oid.  The forward-to-backward direction fails (collapsing
filters overwrite backward entries; see the counterexample). -/
theorem c3_cache_coherence_amended (spec : String)
    (atc : Obj → Cache → Cache → Except EErr Oid × Cache × Cache)
    (tip : Oid) (fwd bwd : Cache)
    (hatc : AtcOk spec atc) (hinv : CacheInv fwd bwd) :
    CacheInv (applyFilterCachedWith spec atc tip fwd bwd).2.1
             (applyFilterCachedWith spec atc tip fwd bwd).2.2 := by
  simp only [applyFilterCachedWith]
  by_cases h0 : cacheHas fwd (spec, tip) = true
  · rw [if_pos h0]
    exact hinv
  · rw [if_neg h0]
    have hfold := afcfold_inv spec atc hatc (walkList tip) (fwd, bwd) hinv
    by_cases h1 : cacheHas ((walkList tip).foldl (afcStep spec atc)
        (fwd, bwd)).1 (spec, tip) = true
    · rw [if_pos h1]
      exact hfold
    · rw [if_neg h1]
      intro s f o hf hb
      dsimp only at hb ⊢
      have hstep := hfold s f o hf hb
      by_cases hk : (s, o) = ((spec, tip) : CKey)
      · exfalso
        rw [hk] at hstep
        apply h1
        rw [cacheHas, hstep]
        rfl
      · rw [lookupC_set_ne _ _ _ _ hk]
        exact hstep

/-- C3 witness: the invariant-preservation theorem applied to the
cache-answering filter `atcW` at the root commit `cA` with empty
caches. -/
theorem c3_witness :
    CacheInv (applyFilterCachedWith "s" atcW (objOid cA) [] []).2.1
             (applyFilterCachedWith "s" atcW (objOid cA) [] []).2.2 :=
  c3_cache_coherence_amended "s" atcW (objOid cA) [] []
    (fun c fwd bwd hinv =>
      ⟨hinv, fun v hv => by simp [atcW, cacheGet, hv], rfl⟩)
    (fun s f o hf hb => by cases hb)

end Josh

namespace Josh

/-! C9: the workspace filter and the first parent. -/

/-- C9: one step of `ws_apply_to_tree_and_parents` on a commit with at
least one parent.  After the per-parent loop (`wsParentFold`) has
filtered every parent (collecting the non-zero ids `ids`) and subtracted
every parent's workspace entries from the commit's entry set (leaving
`inThis`), the auxiliary combine filter is built from the remaining
entries over the `Empty` base (`.combine .emptyf pcwEntries`, where
`pcwEntries` parses from the joined `inThis` lines) and is applied, via
`apply_to_commit`, to the first original parent commit `pc0` only — the
later parents `rest` appear nowhere in the extra-parent computation —
and its result `q` is appended to the filtered parent list exactly when
it is non-zero. -/
theorem c9_ws_first_parent (ctx : Ctx) (fuel : Nat) (wsPath : List String)
    (fullTree : Tree) (p0 : Oid) (rest : List Oid) (fwd bwd : Cache)
    (cwBase : Filt) (cwEntries : List (Filt × List String))
    (ids : List Oid) (inThis : List String) (f1 b1 : Cache)
    (pcwEntries : List (Filt × List String)) (pc0 : Obj) (q : Oid)
    (f2 b2 : Cache) (t2 : Tree)
    (hcw : combineFilterFromWs ctx fullTree wsPath = .ok (cwBase, cwEntries))
    (hpf : wsParentFold ctx fuel wsPath (p0 :: rest) []
      ((entryStringsOf cwEntries).foldl insertSet []) fwd bwd
      = (.ok (ids, inThis), f1, b1))
    (hjoin : ctx.parseWs (inThis.foldl (fun acc x => acc ++ x ++ "\n") "")
      = some pcwEntries)
    (hfind : findCommit p0 = .ok pc0)
    (happ : applyToCommit ctx fuel (.combine .emptyf pcwEntries) pc0 f1 b1
      = (.ok q, f2, b2))
    (hT : applyToTree ctx fuel (.combine cwBase cwEntries) fullTree = .ok t2) :
    wsApply ctx (fuel + 1) wsPath fullTree (p0 :: rest) fwd bwd
      = (.ok (t2, if q ≠ Oid.zero then ids ++ [q] else ids), f2, b2) := by
  simp only [wsApply, hcw, hpf, buildCombineFilter, hjoin, hfind, happ, hT]

/-- C9 witness: the workspace filter `:workspace=w` over the tree of
`cA` with the single parent `cA`; the parent filters to zero, the
remaining entry set is empty, and the auxiliary filter applied to `cA`
yields zero, so no synthetic parent is appended. -/
theorem c9_witness :
    wsApply ctxD 11 ["w"] treeA [objOid cA] [] []
      = (.ok (([] : Tree),
          if Oid.zero ≠ Oid.zero then ([] : List Oid) ++ [Oid.zero] else []),
         c9F1, c9B1) :=
  c9_ws_first_parent ctxD 10 ["w"] treeA (objOid cA) [] [] []
    (.subdir ["w"]) [] [] [] c9F1 c9B1 [] cA Oid.zero c9F1 c9B1 []
    rfl rfl rfl rfl rfl rfl

end Josh
